import Mathlib

/-!
# Verification of the `etx` extended-transaction manager (inchworks/webparts)

This file gives a shallow embedding of the V2 transaction manager in
`src/unnamed/part_001` (lines 1-530, package `etx`) and proves properties of
its specification against it.

Modelling conventions:
* Go `time.Time` values are modelled as `Int` nanoseconds since the Unix epoch
  (`time.Unix(0, n)` is the identity on that representation); `time.Now()` is
  an explicit parameter of every function that reads the clock.
* `TxId`, `opId` and `int64` are modelled as `Int`; operation payloads (`Op`)
  are opaque to the TM and are modelled as `Int` tokens; `json.Marshal` /
  `json.Unmarshal` are modelled as the identity on those tokens (round-trip
  serialisation), so the `Redo.Operation` byte field holds the token itself.
* A resource manager (`RM`) is identified by its `Name()` string, as the code
  itself does in `forget` ("we can't compare interfaces").  The modelled RMs
  complete synchronously: each `RM.Operation` records the dispatch and calls
  `TM.End` before returning (spec section 4.3's synchronous chaining); the
  dispatch itself is recorded in an explicit trace.
* The Go map `tm.etxs` is an insertion-ordered association list; Go's map
  iteration order is unspecified, so only per-transaction projections of
  multi-transaction traces are meaningful, which is all the claims need.
* `sync.Mutex` residue is modelled by a `locked` flag set exactly at the
  `Lock()` / `Unlock()` call sites of the source; a function that returns
  with `locked = true` has left the mutex held, so every later call that
  locks would block.
* The V1 compatibility shim (`storeV1`, `maxV1`, the `txId <= tm.maxV1`
  branch of `End`) is omitted: `maxV1` is only set by `RecoverV1`
  (src/etx/etxV1.go), which is never called in the scenarios considered, and
  it is zero-valued otherwise while all `Begin`-issued ids are positive.
* The injected `RedoStore` is modelled as a record list plus environment
  flags saying which store calls fail, and a ghost log of every `DeleteId`
  invocation (used to express "no duplicate deletes").
-/

namespace Etx

/-- In-memory cached operation, embedding `etxOp` (part_001 lines 103-110).
`rm` is modelled by the manager's name; `op` is the opaque payload token. -/
structure EtxOp where
  id : Int
  rmName : String
  due : Int
  opType : Int
  op : Int
deriving Repr, DecidableEq

/-- Per-transaction state, embedding `etxOps` (part_001 lines 94-101). -/
structure EtxOps where
  isTimed : Bool
  active : Bool
  sorted : Bool
  immediate : List EtxOp
  timed : List EtxOp
deriving Repr, DecidableEq

/-- Durable redo record, embedding `Redo` (part_001 lines 51-60).
`operation` is the marshalled payload, modelled as the payload token. -/
structure Redo where
  id : Int
  tx : Int
  manager : String
  redoType : Int
  delay : Int
  opType : Int
  operation : Int
deriving Repr, DecidableEq

/-- `redoNext` constant (part_001 line 47). -/
def redoNext : Int := 1

/-- `redoTimed` constant (part_001 line 48). -/
def redoTimed : Int := 2

/-- Model of the injected `RedoStore` (part_001 lines 62-72): the records in
insertion order, environment flags choosing which calls fail, and a ghost
trace of every `DeleteId` call made. -/
structure RedoStore where
  recs : List Redo
  failInsert : Bool
  failDeleteIds : List Int
  deleteCalls : List Int
deriving Repr, DecidableEq

/-- `RedoStore.Insert`: append the record, or fail as the environment says. -/
def RedoStore.insert (s : RedoStore) (r : Redo) : Option String × RedoStore :=
  if s.failInsert then (some "store: insert failed", s)
  else (none, { s with recs := s.recs ++ [r] })

/-- `RedoStore.DeleteId`: remove the record with the given id (the call is
recorded in the ghost trace even when the environment makes it fail). -/
def RedoStore.deleteId (s : RedoStore) (i : Int) : Option String × RedoStore :=
  let s1 := { s with deleteCalls := s.deleteCalls ++ [i] }
  if i ∈ s.failDeleteIds then (some "store: delete failed", s1)
  else (none, { s1 with recs := s1.recs.filter (fun r => r.id ≠ i) })

/-- Insert a record into a list sorted by ascending id (skeleton of
`RedoStore.All`, which returns "all redo log entries in ID order"). -/
def insertById (r : Redo) : List Redo → List Redo
  | [] => [r]
  | b :: l => if r.id ≤ b.id then r :: b :: l else b :: insertById r l

/-- Sort records by ascending id. -/
def sortById : List Redo → List Redo
  | [] => []
  | r :: l => insertById r (sortById l)

/-- `RedoStore.All`: all redo log entries in ID order. -/
def RedoStore.all (s : RedoStore) : List Redo := sortById s.recs

/-- Association-list lookup for the Go map `tm.etxs` (`etx, exists := tm.etxs[tx]`). -/
def getEtx : List (Int × EtxOps) → Int → Option EtxOps
  | [], _ => none
  | (k, v) :: rest, tx => if k = tx then some v else getEtx rest tx

/-- Association-list update/insert for `tm.etxs[tx] = etx`. -/
def setEtx : List (Int × EtxOps) → Int → EtxOps → List (Int × EtxOps)
  | [], tx, e => [(tx, e)]
  | (k, v) :: rest, tx, e =>
    if k = tx then (tx, e) :: rest else (k, v) :: setEtx rest tx e

/-- Association-list removal for `delete(tm.etxs, tx)`. -/
def delEtx : List (Int × EtxOps) → Int → List (Int × EtxOps)
  | [], _ => []
  | (k, v) :: rest, tx => if k = tx then rest else (k, v) :: delEtx rest tx

/-- Transaction-manager state, embedding `TM` (part_001 lines 74-90).
`locked` models the residue of `tm.mu` (true iff the mutex is held when the
current method returns); the V1 fields are omitted (see the header). -/
structure TM where
  etxs : List (Int × EtxOps)
  lastId : Int
  store : RedoStore
  locked : Bool
deriving Repr, DecidableEq

/-- `New` (part_001 lines 112-127): fresh TM for the given store; the
background worker goroutine is modelled by explicit `workerTick` calls. -/
def TM.new (store : RedoStore) : TM :=
  { etxs := [], lastId := 0, store := store, locked := false }

/-- `Timestamp` (part_001 lines 287-291): `time.Unix(0, int64(tx))`, the
identity on our nanosecond representation. -/
def Timestamp (tx : Int) : Int := tx

/-- `TM.newId` (part_001 lines 450-461): take the clock reading, bump by one
if it equals the last issued id, and record it as the last issued id. -/
def TM.newId (tm : TM) (nowNs : Int) : Int × TM :=
  let id := if nowNs = tm.lastId then nowNs + 1 else nowNs
  (id, { tm with lastId := id })

/-- `TM.Begin` (part_001 lines 129-140): allocate a fresh id under the lock. -/
def TM.begin (tm : TM) (nowNs : Int) : Int × TM :=
  let tm1 := { tm with locked := true }
  let (id, tm2) := tm1.newId nowNs
  (id, { tm2 with locked := false })

/-- The cache transformation of `TM.saveOp` (part_001 lines 480-507): append
the operation to the cached immediate or timed list of its transaction,
creating the cache entry first if needed (an unknown `tmType` is logged and
leaves the fresh entry empty). -/
def saveOpList (l : List (Int × EtxOps)) (tx : Int) (tmType : Int) (tmOp : EtxOp) :
    List (Int × EtxOps) :=
  let etx0 := getEtx l tx
  let etx :=
    match etx0 with
    | some e => e
    | none =>
      { isTimed := false, active := false, sorted := false,
        immediate := [], timed := [] }
  let etxs1 :=
    match etx0 with
    | some _ => l
    | none => setEtx l tx etx
  if tmType = redoNext then
    setEtx etxs1 tx { etx with immediate := etx.immediate ++ [tmOp] }
  else if tmType = redoTimed then
    setEtx etxs1 tx { etx with timed := etx.timed ++ [tmOp], sorted := false }
  else
    etxs1

/-- `TM.saveOp` (part_001 lines 480-507): only the cache is touched. -/
def TM.saveOp (tm : TM) (tx : Int) (tmType : Int) (tmOp : EtxOp) : TM :=
  { tm with etxs := saveOpList tm.etxs tx tmType tmOp }

/-- `TM.addOp` (part_001 lines 293-330): cache the operation under the lock
(the Go code appends the `etxOp` pointer first and assigns its id just after,
still under the same lock; we build the op with its id directly), unlock,
marshal the payload (identity in this model) and insert the redo record,
returning any store error to the caller. -/
def TM.addOp (tm : TM) (tx : Int) (rmName : String) (tmType delay opType rmOp : Int)
    (nowNs : Int) : Option String × TM :=
  let tm1 := { tm with locked := true }
  let (id, tm2) := tm1.newId nowNs
  let tmOp : EtxOp :=
    { id := id, rmName := rmName,
      due := Timestamp tx + delay * 1000000000, opType := opType, op := rmOp }
  let tm3 := tm2.saveOp tx tmType tmOp
  let tm4 := { tm3 with locked := false }
  let r : Redo :=
    { id := id, tx := tx, manager := rmName, redoType := tmType,
      delay := delay, opType := opType, operation := rmOp }
  let (err, st) := tm4.store.insert r
  (err, { tm4 with store := st })

/-- `TM.AddNext` (part_001 lines 142-147). -/
def TM.addNext (tm : TM) (tx : Int) (rmName : String) (opType op : Int)
    (nowNs : Int) : Option String × TM :=
  tm.addOp tx rmName redoNext 0 opType op nowNs

/-- `int(math.Round(after.Seconds()))` for a `time.Duration` of `ns`
nanoseconds: the number of seconds rounded half away from zero.  `math.Round`
rounds half away from zero; on the int64 durations admitted by the documented
90-day cap the float64 computation agrees with exact rational rounding,
embedded here. -/
def roundedSeconds (ns : Int) : Int :=
  if ns < 0 then -(((-ns) + 500000000) / 1000000000)
  else (ns + 500000000) / 1000000000

/-- The delay recorded by `TM.AddTimed` (part_001 lines 151-157): the rounded
second count, bumped to 1 exactly when the rounded value is 0. -/
def delayOfDuration (ns : Int) : Int :=
  if roundedSeconds ns = 0 then 1 else roundedSeconds ns

/-- `TM.AddTimed` (part_001 lines 149-159). -/
def TM.addTimed (tm : TM) (tx : Int) (rmName : String) (opType op : Int)
    (afterNs : Int) (nowNs : Int) : Option String × TM :=
  tm.addOp tx rmName redoTimed (delayOfDuration afterNs) opType op nowNs

/-- The package-level `end` helper (part_001 lines 397-409): forget the head
operation of the list and return its id, or report "Operation already ended"
when the list is empty. -/
def endOps : List EtxOp → (Int × Option String) × List EtxOp
  | [] => ((0, some "etx: Operation already ended"), [])
  | o :: rest => ((o.id, none), rest)

/-- `TM.End` (part_001 lines 172-207), V2 path (see header about V1): under
the lock, look up the transaction — returning the "Invalid transaction ID"
error WITHOUT unlocking when it is absent, exactly as the source does — then
clear `active`, pop the head of the current (timed or immediate) list, unlock
and delete the popped redo record, returning any error. -/
def TM.endTx (tm : TM) (txId : Int) : Option String × TM :=
  let tm1 := { tm with locked := true }
  match getEtx tm1.etxs txId with
  | none => (some "etx: Invalid transaction ID", tm1)
  | some etx0 =>
    let etx1 := { etx0 with active := false }
    let (res, rest) := endOps (if etx1.isTimed then etx1.timed else etx1.immediate)
    let etx2 :=
      if etx1.isTimed then { etx1 with timed := rest } else { etx1 with immediate := rest }
    let tm2 := { tm1 with etxs := setEtx tm1.etxs txId etx2, locked := false }
    match res.2 with
    | some e => (some e, tm2)
    | none =>
      let (derr, st) := tm2.store.deleteId res.1
      (derr, { tm2 with store := st })

/-- Whether a cached operation matches a `Forget(rm, opType)` request
(part_001 line 425: compare by manager name and operation type). -/
def opMatches (rmName : String) (opType : Int) (o : EtxOp) : Bool :=
  o.rmName = rmName && o.opType = opType

/-- Issue `DeleteId` for each id, logging (and otherwise ignoring) errors,
as the tail of `TM.forget` does (part_001 lines 440-445). -/
def RedoStore.deleteAllLogged (s : RedoStore) : List Int → RedoStore
  | [] => s
  | i :: rest => (s.deleteId i).2.deleteAllLogged rest

/-- `TM.forget` (part_001 lines 411-448): under the lock, scan the list from
the end removing every operation of the given manager/opType (the index loop
is extensionally the `filter` below, and collecting matches from the end
yields them in reverse list order); after unlocking, delete each removed
record from the store, logging rather than returning store errors. -/
def TM.forgetOps (tm : TM) (ops : List EtxOp) (rmName : String) (opType : Int) :
    List EtxOp × TM :=
  let keep := ops.filter (fun o => ! opMatches rmName opType o)
  let toDel := ((ops.filter (opMatches rmName opType)).reverse).map (·.id)
  (keep, { tm with store := tm.store.deleteAllLogged toDel })

/-- `TM.Forget` (part_001 lines 209-223): look up the transaction (without
taking the lock, as the source does) — an unknown transaction is an
"Invalid transaction ID" error — then drop matching operations from both the
immediate and the timed list. -/
def TM.forgetTx (tm : TM) (tx : Int) (rmName : String) (opType : Int) :
    Option String × TM :=
  match getEtx tm.etxs tx with
  | none => (some "etx: Invalid transaction ID", tm)
  | some etx =>
    let (imm, tm1) := tm.forgetOps etx.immediate rmName opType
    let (tmd, tm2) := tm1.forgetOps etx.timed rmName opType
    (none, { tm2 with etxs := setEtx tm2.etxs tx { etx with immediate := imm, timed := tmd } })

/-- Ordered insert by due time, placing the new element before the first
element it is not strictly later than: the unique stable-sort skeleton. -/
def insertDue (a : EtxOp) : List EtxOp → List EtxOp
  | [] => [a]
  | b :: l => if a.due ≤ b.due then a :: b :: l else b :: insertDue a l

/-- Stable sort of the timed list by ascending due time, embedding
`sort.SliceStable(etx.timed, ...due.Before(...))` (part_001 lines 351-353):
a stable sort is determined by its comparator, so this insertion sort (which
keeps earlier elements of the input before later equal-due ones) computes the
same list. -/
def sortByDue : List EtxOp → List EtxOp
  | [] => []
  | a :: l => insertDue a (sortByDue l)

/-- One dispatch of an operation to its RM, as recorded in the trace. -/
structure Disp where
  tx : Int
  id : Int
  opType : Int
  timed : Bool
  op : Int
deriving Repr, DecidableEq

/-- `TM.doNext` (part_001 lines 332-395): execute the next immediate (or due
timed) operation of the transaction; returns the updated state, the dispatch
trace of the call, and the Go boolean (another synchronous op remains).  The
`rm.Operation` call is modelled as recording the dispatch and synchronously
calling `TM.End` (see the header); the lock is released around it exactly as
in the source. -/
def TM.doNext (tm : TM) (tx : Int) (timed : Bool) (nowNs : Int) :
    TM × List Disp × Bool :=
  let tm1 := { tm with locked := true }
  match getEtx tm1.etxs tx with
  | none => ({ tm1 with locked := false }, [], false)
  | some etx0 =>
    let etx :=
      if timed && !etx0.sorted then
        { etx0 with timed := sortByDue etx0.timed, sorted := true }
      else etx0
    let tm2 := { tm1 with etxs := setEtx tm1.etxs tx etx }
    let ops := if timed then etx.timed else etx.immediate
    match ops with
    | [] =>
      match getEtx tm2.etxs tx with
      | none => ({ tm2 with locked := false }, [], false)
      | some etx2 =>
        if etx2.immediate.length + etx2.timed.length = 0 then
          ({ tm2 with etxs := delEtx tm2.etxs tx, locked := false }, [], false)
        else
          ({ tm2 with locked := false }, [],
            if timed then decide (etx2.timed.length > 0)
            else decide (etx2.immediate.length > 0))
    | tmOp :: _ =>
      if timed && decide (nowNs < tmOp.due) then
        ({ tm2 with locked := false }, [], false)
      else
        let etx1 := { etx with isTimed := timed, active := true }
        let tm3 := { tm2 with etxs := setEtx tm2.etxs tx etx1, locked := false }
        let d : Disp :=
          { tx := tx, id := tmOp.id, opType := tmOp.opType, timed := timed, op := tmOp.op }
        let (_endErr, tm4) := tm3.endTx tx
        let tm5 := { tm4 with locked := true }
        match getEtx tm5.etxs tx with
        | none => ({ tm5 with locked := false }, [d], false)
        | some etx2 =>
          if etx2.active then
            ({ tm5 with locked := false }, [d], false)
          else if etx2.immediate.length + etx2.timed.length = 0 then
            ({ tm5 with etxs := delEtx tm5.etxs tx, locked := false }, [d], false)
          else
            ({ tm5 with locked := false }, [d],
              if timed then decide (etx2.timed.length > 0)
              else decide (etx2.immediate.length > 0))

/-- The `for tm.doNext(tx, timed) {}` loop shared by `Do`, `Recover` and the
worker, with explicit fuel (every synchronous iteration removes one cached
operation, so any fuel at least the transaction's operation count is enough). -/
def TM.doLoop (tm : TM) (tx : Int) (timed : Bool) (nowNs : Int) :
    Nat → TM × List Disp
  | 0 => (tm, [])
  | fuel + 1 =>
    match tm.doNext tx timed nowNs with
    | (tm1, ds, more) =>
      if more then
        let (tm2, ds2) := tm1.doLoop tx timed nowNs fuel
        (tm2, ds ++ ds2)
      else (tm1, ds)

/-- `TM.Do` (part_001 lines 161-170): run the immediate loop; always returns
nil. -/
def TM.do (tm : TM) (tx : Int) (nowNs : Int) (fuel : Nat) :
    TM × List Disp × Option String :=
  let (tm1, ds) := tm.doLoop tx false nowNs fuel
  (tm1, ds, none)

/-- One pass of the worker body over a list of transaction ids, embedding
`for tx := range tm.etxs { for tm.doNext(tx, true) {} }` (part_001 lines
519-524) for a given iteration order of the map. -/
def TM.tickTxs (tm : TM) (nowNs : Int) (fuel : Nat) : List Int → TM × List Disp
  | [] => (tm, [])
  | tx :: txs =>
    let (tm1, ds) := tm.doLoop tx true nowNs fuel
    let (tm2, ds2) := tm1.tickTxs nowNs fuel txs
    (tm2, ds ++ ds2)

/-- One tick of the background `worker` (part_001 lines 509-530), iterating
the cached transactions in association-list order. -/
def TM.workerTick (tm : TM) (nowNs : Int) (fuel : Nat) : TM × List Disp :=
  tm.tickTxs nowNs fuel (tm.etxs.map Prod.fst)

/-- The record-loading loop of `TM.Recover` (part_001 lines 244-269): for
each record in id order, fail on an unregistered manager (unlocking first, as
the source does), reconstruct the cached operation — recomputing its due time
as `Timestamp(tx) + Delay seconds` — and `saveOp` it.  Payload unmarshalling
is the identity in this model, so the logged-and-skipped malformed-payload
branch is not taken. -/
def TM.recoverLoad (tm : TM) (rms : List String) : List Redo → Option String × TM
  | [] => (none, tm)
  | r :: rest =>
    if r.manager ∈ rms then
      let tmOp : EtxOp :=
        { id := r.id, rmName := r.manager,
          due := Timestamp r.tx + r.delay * 1000000000,
          opType := r.opType, op := r.operation }
      (tm.saveOp r.tx r.redoType tmOp).recoverLoad rms rest
    else (some "Missing resource manager", { tm with locked := false })

/-- The redispatch phase of `TM.Recover` (part_001 lines 272-276): run the
immediate loop for every cached transaction. -/
def TM.doAll (tm : TM) (nowNs : Int) (fuel : Nat) : List Int → TM × List Disp
  | [] => (tm, [])
  | tx :: txs =>
    let (tm1, ds) := tm.doLoop tx false nowNs fuel
    let (tm2, ds2) := tm1.doAll nowNs fuel txs
    (tm2, ds ++ ds2)

/-- `TM.Recover` (part_001 lines 231-279): under the lock, replay the stored
records (in id order, per `RedoStore.All`) into the cache, then redispatch
the first immediate operation chain of every cached transaction. -/
def TM.recover (tm : TM) (rms : List String) (nowNs : Int) (fuel : Nat) :
    Option String × TM × List Disp :=
  let tm1 := { tm with locked := true }
  match tm1.recoverLoad rms tm1.store.all with
  | (some e, tm2) => (some e, tm2, [])
  | (none, tm2) =>
    let tm3 := { tm2 with locked := false }
    let (tm4, ds) := tm3.doAll nowNs fuel (tm3.etxs.map Prod.fst)
    (none, tm4, ds)

/-- A process crash followed by `New` on the untouched store: the in-memory
cache, id counter and mutex are reset, the durable store is kept. -/
def crash (tm : TM) : TM := TM.new tm.store

end Etx


namespace Etx

/-! ## Transaction-code encoding (`String`, `Id`, `reverse`)

Go strings are modelled as lists of rune code points (`List Nat`), on which
the rune-level `reverse` of part_001 lines 463-478 is `List.reverse`. -/

/-- The digit characters used by `strconv.FormatInt`: `0`-`9` then `a`-`z`,
as code points. -/
def digitChar36 (d : Nat) : Nat :=
  if d < 10 then 48 + d else 87 + d

/-- The base-36 digit string of a natural number, most significant digit
first, as produced by `strconv.FormatInt` for non-negative arguments. -/
def natToBase36 (n : Nat) : List Nat :=
  if _h : n < 36 then [digitChar36 n]
  else natToBase36 (n / 36) ++ [digitChar36 (n % 36)]
decreasing_by exact Nat.div_lt_self (by omega) (by omega)

/-- `strconv.FormatInt(i, 36)`: a minus sign (code 45) followed by the digits
of the absolute value when negative. -/
def formatInt36 (i : Int) : List Nat :=
  if i < 0 then 45 :: natToBase36 i.natAbs else natToBase36 i.toNat

/-- The numeric value of a base-36 digit accepted by `strconv.ParseInt`
(`0`-`9`, `a`-`z` and `A`-`Z`; every accepted value is below 36, so the
parser's digit-below-base test always passes). -/
def digitVal36 (c : Nat) : Option Nat :=
  if 48 ≤ c ∧ c ≤ 57 then some (c - 48)
  else if 97 ≤ c ∧ c ≤ 122 then some (c - 97 + 10)
  else if 65 ≤ c ∧ c ≤ 90 then some (c - 65 + 10)
  else none

/-- The digit-accumulation loop of `strconv.ParseUint`. -/
def parseDigits36 (acc : Nat) : List Nat → Option Nat
  | [] => some acc
  | c :: rest =>
    match digitVal36 c with
    | some d => parseDigits36 (acc * 36 + d) rest
    | none => none

/-- Model of `strconv.ParseInt(s, 36, 64)`: optional sign, at least one
base-36 digit, and an int64 range check.  Go reports a range error through a
non-nil error (with a clamped value); this model reports every error as
`none`. -/
def parseInt36 : List Nat → Option Int
  | [] => none
  | c :: rest =>
    if c = 45 then
      if rest = [] then none
      else
        match parseDigits36 0 rest with
        | none => none
        | some n => if n ≤ 2 ^ 63 then some (-(n : Int)) else none
    else if c = 43 then
      if rest = [] then none
      else
        match parseDigits36 0 rest with
        | none => none
        | some n => if n ≤ 2 ^ 63 - 1 then some ((n : Int)) else none
    else
      match parseDigits36 0 (c :: rest) with
      | none => none
      | some n => if n ≤ 2 ^ 63 - 1 then some ((n : Int)) else none

/-- `reverse` (part_001 lines 463-478): rune-level reversal of a string. -/
def reverseStr (s : List Nat) : List Nat := s.reverse

/-- `String` (part_001 lines 281-285): the reversed base-36 representation. -/
def StringOfTx (tx : Int) : List Nat := reverseStr (formatInt36 tx)

/-- `Id` (part_001 lines 225-229): parse the reversed string. -/
def IdOfString (s : List Nat) : Option Int := parseInt36 (reverseStr s)

theorem digitVal36_digitChar36 : ∀ d, d < 36 → digitVal36 (digitChar36 d) = some d := by
  decide

theorem digitChar36_ge : ∀ d, d < 36 → 48 ≤ digitChar36 d := by
  decide

/-- The digit string of `n` starts with a digit character. -/
theorem natToBase36_head (n : Nat) :
    ∃ d rest, natToBase36 n = digitChar36 d :: rest ∧ d < 36 := by
  induction n using Nat.strong_induction_on with
  | _ n ih =>
    rw [natToBase36]
    by_cases h : n < 36
    · exact ⟨n, [], by simp [h], h⟩
    · simp only [h, dite_false]
      obtain ⟨d, rest, heq, hd⟩ := ih (n / 36) (Nat.div_lt_self (by omega) (by omega))
      exact ⟨d, rest ++ [digitChar36 (n % 36)], by simp [heq], hd⟩

theorem parseDigits36_append (acc : Nat) (xs ys : List Nat) :
    parseDigits36 acc (xs ++ ys) =
      match parseDigits36 acc xs with
      | some a => parseDigits36 a ys
      | none => none := by
  induction xs generalizing acc with
  | nil => simp [parseDigits36]
  | cons c rest ih =>
    simp only [List.cons_append, parseDigits36]
    cases digitVal36 c with
    | none => rfl
    | some d => exact ih _

/-- Parsing the digit string of `n` yields `n` shifted past the accumulator. -/
theorem parseDigits36_natToBase36 (n : Nat) : ∀ acc,
    parseDigits36 acc (natToBase36 n) =
      some (acc * 36 ^ (natToBase36 n).length + n) := by
  induction n using Nat.strong_induction_on with
  | _ n ih =>
    intro acc
    rw [natToBase36]
    by_cases h : n < 36
    · simp only [h, dite_true, parseDigits36, digitVal36_digitChar36 n h,
        List.length_singleton]
      simp [parseDigits36]
    · simp only [h, dite_false]
      rw [parseDigits36_append]
      have hlt : n / 36 < n := Nat.div_lt_self (by omega) (by omega)
      rw [ih (n / 36) hlt acc]
      simp only [parseDigits36, digitVal36_digitChar36 (n % 36) (Nat.mod_lt n (by omega)),
        List.length_append, List.length_singleton]
      congr 1
      have := Nat.div_add_mod n 36
      rw [pow_succ]
      ring_nf
      omega

end Etx

namespace Etx

/-- Parsing the formatted digits of a non-negative int64 recovers it. -/
theorem parseInt36_formatInt36 (tx : Int) (h0 : 0 ≤ tx) (h1 : tx < 2 ^ 63) :
    parseInt36 (formatInt36 tx) = some tx := by
  have hfmt : formatInt36 tx = natToBase36 tx.toNat := by
    unfold formatInt36
    rw [if_neg (by omega)]
  obtain ⟨d, rest, heq, hd⟩ := natToBase36_head tx.toNat
  have h48 := digitChar36_ge d hd
  have hparse := parseDigits36_natToBase36 tx.toNat 0
  rw [heq] at hparse
  rw [hfmt, heq]
  simp only [parseInt36]
  rw [if_neg (by omega), if_neg (by omega), hparse]
  simp only [Nat.zero_mul, Nat.zero_add]
  rw [if_pos (by omega)]
  congr 1
  omega

/-- A fresh, empty, never-failing redo store (used for concrete scenarios). -/
def emptyStore : RedoStore :=
  { recs := [], failInsert := false, failDeleteIds := [], deleteCalls := [] }

/-- C9: for every non-negative `TxId` in the int64 range (as produced by
`Begin`), `Id(String(tx))` returns `tx` with no error; `String` returns the
reversed base-36 representation and is injective on such ids. -/
theorem C9_txcode_roundtrip_injective (tx : Int) (h0 : 0 ≤ tx) (h1 : tx < 2 ^ 63) :
    IdOfString (StringOfTx tx) = some tx ∧
    StringOfTx tx = (formatInt36 tx).reverse ∧
    ∀ tx2, 0 ≤ tx2 → tx2 < 2 ^ 63 → tx ≠ tx2 → StringOfTx tx ≠ StringOfTx tx2 := by
  have hrt : ∀ t : Int, 0 ≤ t → t < 2 ^ 63 → IdOfString (StringOfTx t) = some t := by
    intro t ht0 ht1
    unfold IdOfString StringOfTx reverseStr
    rw [List.reverse_reverse]
    exact parseInt36_formatInt36 t ht0 ht1
  refine ⟨hrt tx h0 h1, rfl, ?_⟩
  intro tx2 h20 h21 hne heq
  have h := hrt tx h0 h1
  rw [heq, hrt tx2 h20 h21] at h
  exact hne (Option.some.inj h).symm

/-- Witness for C9 at `tx = 37` (code "11" reversed) and `tx2 = 1`. -/
theorem C9_txcode_witness :
    IdOfString (StringOfTx 37) = some 37 ∧ StringOfTx 37 ≠ StringOfTx 1 :=
  ⟨(C9_txcode_roundtrip_injective 37 (by decide) (by decide)).1,
   (C9_txcode_roundtrip_injective 37 (by decide) (by decide)).2.2 1 (by decide)
     (by decide) (by decide)⟩

/-! ## C7: uniqueness of `Begin` ids -/

/-- The ids returned by consecutive `Begin` calls against the given sequence
of clock readings. -/
def beginIds (tm : TM) : List Int → List Int
  | [] => []
  | c :: cs => (tm.begin c).1 :: beginIds (tm.begin c).2 cs

/-- C7 as stated is false: with clock readings 5, 5, 5 the first and the
third `Begin` both return 5 — the bump only compares against the immediately
preceding issued id. -/
theorem C7_begin_unique_counterexample :
    beginIds (TM.new emptyStore) [5, 5, 5] = [5, 6, 5] ∧
    ¬ (beginIds (TM.new emptyStore) [5, 5, 5]).Pairwise (· ≠ ·) := by
  decide

/-- Helper invariant for the amended C7: under strictly increasing clock
readings (each larger than a base `c0` at least `lastId - 1`), the issued
ids strictly exceed `lastId` and are strictly increasing. -/
theorem beginIds_mono : ∀ (cs : List Int) (tm : TM) (c0 : Int),
    tm.lastId ≤ c0 + 1 → (c0 :: cs).Chain' (· < ·) →
    (beginIds tm cs).Chain' (· < ·) ∧ ∀ x ∈ beginIds tm cs, tm.lastId < x := by
  intro cs
  induction cs with
  | nil => intro tm c0 _ _; exact ⟨List.chain'_nil, by simp [beginIds]⟩
  | cons c cs ih =>
    intro tm c0 hle hchain
    have hc0c : c0 < c := (List.chain'_cons'.mp hchain).1 c rfl
    have hchain2 : (c :: cs).Chain' (· < ·) := (List.chain'_cons'.mp hchain).2
    have hid : (tm.begin c).1 = if c = tm.lastId then c + 1 else c := rfl
    have hlast : ((tm.begin c).2).lastId = (tm.begin c).1 := by
      simp [TM.begin, TM.newId]
    have hgt : tm.lastId < (tm.begin c).1 := by
      rw [hid]
      by_cases hc : c = tm.lastId
      · simp [hc]
      · rw [if_neg hc]; omega
    have hle2 : ((tm.begin c).2).lastId ≤ c + 1 := by
      rw [hlast, hid]
      by_cases hc : c = tm.lastId
      · simp [hc]
      · rw [if_neg hc]; omega
    obtain ⟨hch, hmem⟩ := ih (tm.begin c).2 c hle2 hchain2
    constructor
    · show ((tm.begin c).1 :: beginIds (tm.begin c).2 cs).Chain' (· < ·)
      refine List.chain'_cons'.mpr ⟨?_, hch⟩
      intro y hy
      have hymem : y ∈ beginIds (tm.begin c).2 cs := List.mem_of_mem_head? hy
      have := hmem y hymem
      omega
    · intro x hx
      rcases List.mem_cons.mp hx with hx | hx
      · rw [hx]; exact hgt
      · have := hmem x hx
        have := hlast
        omega

/-- C7 amended: `Begin` ids are pairwise distinct provided the clock readings
are positive and strictly increasing; the bump-on-collision only protects
against a reading equal to the immediately preceding issued id, so repeated
readings can re-issue an id (see the counterexample). -/
theorem C7_begin_unique_amended (store : RedoStore) (cs : List Int)
    (hpos : ∀ c ∈ cs, 0 < c) (hmono : cs.Chain' (· < ·)) :
    (beginIds (TM.new store) cs).Pairwise (· ≠ ·) := by
  have hchain : (0 :: cs).Chain' (· < ·) := by
    refine List.chain'_cons'.mpr ⟨?_, hmono⟩
    intro y hy
    exact hpos y (List.mem_of_mem_head? hy)
  have h := (beginIds_mono cs (TM.new store) 0 (by simp [TM.new]) hchain).1
  have hpw : (beginIds (TM.new store) cs).Pairwise (· < ·) :=
    List.chain'_iff_pairwise.mp h
  exact hpw.imp (fun hlt => ne_of_lt hlt)

/-- Witness for the amended C7 at clock readings 1, 2, 3. -/
theorem C7_begin_unique_witness :
    (beginIds (TM.new emptyStore) [1, 2, 3]).Pairwise (· ≠ ·) :=
  C7_begin_unique_amended emptyStore [1, 2, 3] (by decide)
    (by norm_num [List.chain'_cons, List.chain'_singleton])

end Etx

namespace Etx

/-! ## C8: `AddTimed` delay rounding and due times -/

/-- The delay as the claim words it: the duration rounded to whole seconds
with a minimum of 1 second (spec-side definition, for comparison with
`delayOfDuration`). -/
def delayClaim (ns : Int) : Int := max (roundedSeconds ns) 1

/-- C8 as stated is false for negative durations: `AddTimed` with a -10s
duration records delay -10 (the bump to 1 applies only when the rounded
value is 0), not the claimed minimum of 1 second. -/
theorem C8_delay_counterexample :
    delayOfDuration (-10000000000) = -10 ∧
    delayClaim (-10000000000) = 1 ∧
    delayOfDuration (-10000000000) ≠ delayClaim (-10000000000) ∧
    (((TM.new emptyStore).addTimed 100 "rmB" 2 22 (-10000000000) 200).2.store.recs.map
      (fun r => r.delay)) = [-10] := by
  refine ⟨by decide, by decide, by decide, ?_⟩
  rfl

theorem getEtx_setEtx_nil (tx : Int) (e : EtxOps) :
    getEtx (setEtx [] tx e) tx = some e := by
  simp [setEtx, getEtx]

/-- C8 amended: the recorded delay is the rounded second count bumped to 1
exactly when the rounding yields 0 — hence a minimum of 1 second for every
non-negative duration — and the due time cached at add time and the due time
recomputed by `Recover` from the stored record both equal
`Timestamp(tx) + delay` seconds. -/
theorem C8_addTimed_amended (tx : Int) (rm : String) (opType op afterNs nowNs : Int)
    (hpos : 0 ≤ afterNs) :
    delayOfDuration afterNs = delayClaim afterNs ∧
    (((TM.new emptyStore).addTimed tx rm opType op afterNs nowNs).2.store.recs.map
      (fun r => r.delay)) = [delayOfDuration afterNs] ∧
    ((getEtx ((TM.new emptyStore).addTimed tx rm opType op afterNs nowNs).2.etxs tx).map
      (fun e => e.timed.map (fun o => o.due)))
      = some [Timestamp tx + delayOfDuration afterNs * 1000000000] ∧
    ((getEtx ((crash ((TM.new emptyStore).addTimed tx rm opType op afterNs nowNs).2).recover
        [rm] 0 1).2.1.etxs tx).map (fun e => e.timed.map (fun o => o.due)))
      = some [Timestamp tx + delayOfDuration afterNs * 1000000000] := by
  have hr : 0 ≤ roundedSeconds afterNs := by
    unfold roundedSeconds
    rw [if_neg (by omega)]
    exact Int.ediv_nonneg (by omega) (by omega)
  refine ⟨?_, ?_, ?_, ?_⟩
  · unfold delayOfDuration delayClaim
    by_cases h0 : roundedSeconds afterNs = 0
    · simp [h0]
    · rw [if_neg h0]
      omega
  · simp [TM.addTimed, TM.addOp, TM.new, TM.newId, TM.saveOp, saveOpList, emptyStore,
      RedoStore.insert, getEtx, setEtx, redoNext, redoTimed]
  · simp [TM.addTimed, TM.addOp, TM.new, TM.newId, TM.saveOp, saveOpList, emptyStore,
      RedoStore.insert, getEtx, setEtx, redoNext, redoTimed, Timestamp]
  · simp [TM.addTimed, TM.addOp, TM.new, TM.newId, TM.saveOp, saveOpList, emptyStore,
      RedoStore.insert, crash, TM.recover, TM.recoverLoad, RedoStore.all,
      sortById, insertById, TM.doAll, TM.doLoop, TM.doNext, getEtx, setEtx,
      delEtx, redoNext, redoTimed, Timestamp]

end Etx

namespace Etx

/-- Witness for the amended C8 at a 5s duration. -/
theorem C8_addTimed_witness :
    delayOfDuration 5000000000 = delayClaim 5000000000 ∧
    (((TM.new emptyStore).addTimed 100 "rmB" 2 22 5000000000 200).2.store.recs.map
      (fun r => r.delay)) = [delayOfDuration 5000000000] :=
  ⟨(C8_addTimed_amended 100 "rmB" 2 22 5000000000 200 (by decide)).1,
   (C8_addTimed_amended 100 "rmB" 2 22 5000000000 200 (by decide)).2.1⟩

/-! ## Association-list lemmas -/

theorem getEtx_setEtx (l : List (Int × EtxOps)) (tx : Int) (v : EtxOps) :
    getEtx (setEtx l tx v) tx = some v := by
  induction l with
  | nil => simp [setEtx, getEtx]
  | cons kv rest ih =>
    obtain ⟨k, w⟩ := kv
    by_cases hk : k = tx
    · simp [setEtx, getEtx, hk]
    · simp [setEtx, getEtx, hk, ih]

theorem getEtx_setEtx_ne (l : List (Int × EtxOps)) (tx tx2 : Int) (v : EtxOps)
    (hne : tx ≠ tx2) : getEtx (setEtx l tx v) tx2 = getEtx l tx2 := by
  induction l with
  | nil => simp [setEtx, getEtx, hne]
  | cons kv rest ih =>
    obtain ⟨k, w⟩ := kv
    by_cases hk : k = tx
    · subst hk
      simp [setEtx, getEtx, hne]
    · simp [setEtx, getEtx, hk, ih]

theorem setEtx_self (l : List (Int × EtxOps)) (tx : Int) (v : EtxOps)
    (h : getEtx l tx = some v) : setEtx l tx v = l := by
  induction l with
  | nil => simp [getEtx] at h
  | cons kv rest ih =>
    obtain ⟨k, w⟩ := kv
    by_cases hk : k = tx
    · subst hk
      simp [getEtx] at h
      simp [setEtx, h]
    · simp [getEtx, hk] at h
      simp [setEtx, hk, ih h]

/-! ## C10: `Do` on a transaction with no cache entry -/

/-- C10: for a `TxId` with no entry in the transaction cache, `Do` returns
nil, dispatches nothing, and leaves the cache and the redo store unchanged. -/
theorem C10_do_unknown_tx (tm : TM) (tx nowNs : Int) (fuel : Nat)
    (h : getEtx tm.etxs tx = none) :
    (tm.do tx nowNs fuel).2.2 = none ∧ (tm.do tx nowNs fuel).2.1 = [] ∧
    (tm.do tx nowNs fuel).1.etxs = tm.etxs ∧
    (tm.do tx nowNs fuel).1.store = tm.store := by
  cases fuel with
  | zero => simp [TM.do, TM.doLoop]
  | succ n => simp [TM.do, TM.doLoop, TM.doNext, h]

/-- Witness for C10 on a fresh TM. -/
theorem C10_do_unknown_tx_witness :
    ((TM.new emptyStore).do 5 1000 3).2.2 = none ∧
    ((TM.new emptyStore).do 5 1000 3).2.1 = [] ∧
    ((TM.new emptyStore).do 5 1000 3).1.etxs = (TM.new emptyStore).etxs ∧
    ((TM.new emptyStore).do 5 1000 3).1.store = (TM.new emptyStore).store :=
  C10_do_unknown_tx (TM.new emptyStore) 5 1000 3 rfl

/-! ## C5: `End` protocol errors -/

/-- C5 claim check, exposing the code bug: `End` on an unknown transaction
does return the "Invalid transaction ID" error without panicking, but it
returns while still holding `tm.mu` (the early return at part_001 line 187
skips the unlock), so every subsequent TM call — for any transaction —
would block forever, contradicting "other transactions unaffected". -/
theorem C5_end_unknown_mutex_bug (tm : TM) (txId : Int)
    (h : getEtx tm.etxs txId = none) :
    tm.endTx txId = (some "etx: Invalid transaction ID", { tm with locked := true }) := by
  unfold TM.endTx
  simp [h]

/-- Witness for C5 on a fresh TM: the error is returned and the mutex is
left held. -/
theorem C5_end_unknown_mutex_bug_witness :
    (TM.new emptyStore).endTx 5
      = (some "etx: Invalid transaction ID", { TM.new emptyStore with locked := true }) :=
  C5_end_unknown_mutex_bug (TM.new emptyStore) 5 rfl

end Etx

namespace Etx

/-! ## C6: idempotence of `Forget` -/

/-- C6 as stated is false for a transaction with no cache entry: `Forget`
then returns the "Invalid transaction ID" error rather than succeeding as a
no-op. -/
theorem C6_forget_counterexample :
    ((TM.new emptyStore).forgetTx 5 "rmA" 1).1 = some "etx: Invalid transaction ID" := by
  rfl

theorem filter_not_self (p : EtxOp → Bool) (l : List EtxOp) :
    (l.filter (fun o => ! p o)).filter p = [] := by
  induction l with
  | nil => rfl
  | cons a l ih =>
    by_cases hp : p a = true
    · simp [List.filter_cons, hp, ih]
    · simp only [Bool.not_eq_true] at hp
      simp [List.filter_cons, hp, ih]

theorem filter_not_idem (p : EtxOp → Bool) (l : List EtxOp) :
    (l.filter (fun o => ! p o)).filter (fun o => ! p o) = l.filter (fun o => ! p o) := by
  induction l with
  | nil => rfl
  | cons a l ih =>
    by_cases hp : p a = true
    · simp [List.filter_cons, hp, ih]
    · simp only [Bool.not_eq_true] at hp
      simp [List.filter_cons, hp, ih]

theorem filter_not_of_no_match (p : EtxOp → Bool) (l : List EtxOp)
    (h : l.filter p = []) : l.filter (fun o => ! p o) = l := by
  induction l with
  | nil => rfl
  | cons a l ih =>
    by_cases hp : p a = true
    · rw [List.filter_cons_of_pos hp] at h
      exact absurd h (by simp)
    · simp only [Bool.not_eq_true] at hp
      rw [List.filter_cons_of_neg (by simp [hp])] at h
      simp [List.filter_cons, hp, ih h]

/-- A `Forget` whose transaction entry contains no matching operation is a
complete no-op: no error, no state change, no store delete issued. -/
theorem forgetTx_noop (tm : TM) (tx : Int) (rm : String) (opType : Int)
    (e : EtxOps) (h : getEtx tm.etxs tx = some e)
    (hi : e.immediate.filter (opMatches rm opType) = [])
    (ht : e.timed.filter (opMatches rm opType) = []) :
    tm.forgetTx tx rm opType = (none, tm) := by
  simp only [TM.forgetTx, h, TM.forgetOps, filter_not_of_no_match _ _ hi,
    filter_not_of_no_match _ _ ht, hi, ht, List.reverse_nil, List.map_nil]
  simp only [Prod.mk.injEq, true_and]
  rw [setEtx_self _ _ _ h]
  rfl

/-- The state left by a (successful) `Forget`: the transaction's entry with
matching operations filtered out of both lists. -/
theorem forgetTx_getEtx (tm : TM) (tx : Int) (rm : String) (opType : Int)
    (e : EtxOps) (h : getEtx tm.etxs tx = some e) :
    getEtx (tm.forgetTx tx rm opType).2.etxs tx = some
      { e with immediate := e.immediate.filter (fun o => ! opMatches rm opType o),
               timed := e.timed.filter (fun o => ! opMatches rm opType o) } := by
  simp only [TM.forgetTx, h, TM.forgetOps]
  exact getEtx_setEtx _ tx _

/-- C6 amended: for a transaction that is present in the cache, `Forget`
returns no error; repeating the same `Forget` leaves the state exactly as
after the first call and issues no further store deletes; and when nothing
matches (operations already forgotten or never added) the call is a complete
no-op.  For a transaction with no cache entry `Forget` instead returns the
"Invalid transaction ID" error (see the counterexample). -/
theorem C6_forget_idempotent_amended (tm : TM) (tx : Int) (rm : String) (opType : Int)
    (e : EtxOps) (h : getEtx tm.etxs tx = some e) :
    (tm.forgetTx tx rm opType).1 = none ∧
    ((tm.forgetTx tx rm opType).2.forgetTx tx rm opType)
      = (none, (tm.forgetTx tx rm opType).2) ∧
    ((e.immediate.filter (opMatches rm opType) = [] ∧
      e.timed.filter (opMatches rm opType) = []) →
      tm.forgetTx tx rm opType = (none, tm)) := by
  refine ⟨by simp [TM.forgetTx, h], ?_, fun hm => forgetTx_noop tm tx rm opType e h hm.1 hm.2⟩
  exact forgetTx_noop _ tx rm opType _ (forgetTx_getEtx tm tx rm opType e h)
    (filter_not_self _ _) (filter_not_self _ _)

/-- Witness for the amended C6: forgetting a type that was never added to a
live transaction. -/
theorem C6_forget_idempotent_witness :
    ((((TM.new emptyStore).addNext 100 "rmA" 1 11 200).2.forgetTx 100 "rmB" 1).1 = none ∧
     ((((TM.new emptyStore).addNext 100 "rmA" 1 11 200).2.forgetTx 100 "rmB" 1).2.forgetTx
        100 "rmB" 1)
        = (none, (((TM.new emptyStore).addNext 100 "rmA" 1 11 200).2.forgetTx 100 "rmB" 1).2)) ∧
    (((TM.new emptyStore).addNext 100 "rmA" 1 11 200).2.forgetTx 100 "rmB" 1)
      = (none, ((TM.new emptyStore).addNext 100 "rmA" 1 11 200).2) := by
  have h := C6_forget_idempotent_amended ((TM.new emptyStore).addNext 100 "rmA" 1 11 200).2
    100 "rmB" 1
    { isTimed := false, active := false, sorted := false,
      immediate := [{ id := 200, rmName := "rmA", due := 100, opType := 1, op := 11 }],
      timed := [] } (by rfl)
  exact ⟨⟨h.1, h.2.1⟩, h.2.2 ⟨by rfl, by rfl⟩⟩

end Etx

namespace Etx

/-! ## C4: store-error handling -/

/-- The cache effect of `saveOp` depends only on the cache. -/
theorem saveOp_etxs_congr (tm1 tm2 : TM) (tx tmType : Int) (o : EtxOp)
    (h : tm1.etxs = tm2.etxs) :
    (tm1.saveOp tx tmType o).etxs = (tm2.saveOp tx tmType o).etxs := by
  simp only [TM.saveOp, h]

/-- `saveOp` never touches the store. -/
theorem saveOp_store (tm : TM) (tx tmType : Int) (o : EtxOp) :
    (tm.saveOp tx tmType o).store = tm.store := rfl

/-- A store whose `DeleteId` fails for id 200 (environment for C4). -/
def failDelStore : RedoStore :=
  { recs := [], failInsert := false, failDeleteIds := [200], deleteCalls := [] }

/-- A store whose `Insert` always fails (environment for C4). -/
def failInsStore : RedoStore :=
  { recs := [], failInsert := true, failDeleteIds := [], deleteCalls := [] }

/-- C4 as stated is false: when the store delete issued by `Forget` fails,
the error is logged and swallowed — `Forget` still returns nil — while the
cache has already dropped the operation and the record remains durable, so
cache and log diverge with no error reported to the caller. -/
theorem C4_store_error_counterexample :
    ((((TM.new failDelStore).addNext 100 "rmA" 1 11 200).2.forgetTx 100 "rmA" 1).1
      = none) ∧
    ((((TM.new failDelStore).addNext 100 "rmA" 1 11 200).2.forgetTx 100 "rmA" 1).2.store.recs.map
        (fun r => r.id) = [200]) ∧
    ((getEtx ((((TM.new failDelStore).addNext 100 "rmA" 1 11 200).2.forgetTx
        100 "rmA" 1).2.etxs) 100).map (fun e => e.immediate) = some []) := by
  refine ⟨rfl, rfl, rfl⟩

/-- C4 amended: `AddNext`/`AddTimed` propagate a failing `Insert` and `End`
propagates a failing `DeleteId` to their callers, but the cache modification
made before the store call is kept, not rolled back (the appended operation
stays cached; the ended operation stays popped while its record stays
durable); `Forget` never propagates store errors at all. -/
theorem C4_store_error_amended :
    (∀ (tm : TM) (tx : Int) (rm : String) (opType op nowNs : Int),
      tm.store.failInsert = true →
        (tm.addNext tx rm opType op nowNs).1 = some "store: insert failed" ∧
        (tm.addNext tx rm opType op nowNs).2.store = tm.store ∧
        (tm.addNext tx rm opType op nowNs).2.etxs =
          (tm.saveOp tx redoNext
            { id := (tm.newId nowNs).1, rmName := rm,
              due := Timestamp tx + 0 * 1000000000, opType := opType, op := op }).etxs) ∧
    (∀ (tm : TM) (tx : Int) (rm : String) (opType op afterNs nowNs : Int),
      tm.store.failInsert = true →
        (tm.addTimed tx rm opType op afterNs nowNs).1 = some "store: insert failed" ∧
        (tm.addTimed tx rm opType op afterNs nowNs).2.store = tm.store ∧
        (tm.addTimed tx rm opType op afterNs nowNs).2.etxs =
          (tm.saveOp tx redoTimed
            { id := (tm.newId nowNs).1, rmName := rm,
              due := Timestamp tx + delayOfDuration afterNs * 1000000000,
              opType := opType, op := op }).etxs) ∧
    (∀ (tm : TM) (txId : Int) (etx : EtxOps) (o : EtxOp) (rest : List EtxOp),
      getEtx tm.etxs txId = some etx → etx.isTimed = false →
      etx.immediate = o :: rest → o.id ∈ tm.store.failDeleteIds →
        (tm.endTx txId).1 = some "store: delete failed" ∧
        getEtx (tm.endTx txId).2.etxs txId
          = some { etx with active := false, immediate := rest } ∧
        (tm.endTx txId).2.store.recs = tm.store.recs) ∧
    (∀ (tm : TM) (txId : Int) (etx : EtxOps) (o : EtxOp) (rest : List EtxOp),
      getEtx tm.etxs txId = some etx → etx.isTimed = true →
      etx.timed = o :: rest → o.id ∈ tm.store.failDeleteIds →
        (tm.endTx txId).1 = some "store: delete failed" ∧
        getEtx (tm.endTx txId).2.etxs txId
          = some { etx with active := false, timed := rest } ∧
        (tm.endTx txId).2.store.recs = tm.store.recs) ∧
    (∀ (tm : TM) (tx : Int) (rm : String) (opType : Int) (e : EtxOps),
      getEtx tm.etxs tx = some e → (tm.forgetTx tx rm opType).1 = none) := by
  refine ⟨?_, ?_, ?_, ?_, ?_⟩
  · intro tm tx rm opType op nowNs hfail
    refine ⟨?_, ?_, ?_⟩
    · simp [TM.addNext, TM.addOp, TM.newId, RedoStore.insert, saveOp_store, hfail]
    · simp [TM.addNext, TM.addOp, TM.newId, RedoStore.insert, saveOp_store, hfail]
    · simp only [TM.addNext, TM.addOp, TM.newId, RedoStore.insert, saveOp_store, hfail,
        if_true]
      exact saveOp_etxs_congr _ _ _ _ _ rfl
  · intro tm tx rm opType op afterNs nowNs hfail
    refine ⟨?_, ?_, ?_⟩
    · simp [TM.addTimed, TM.addOp, TM.newId, RedoStore.insert, saveOp_store, hfail]
    · simp [TM.addTimed, TM.addOp, TM.newId, RedoStore.insert, saveOp_store, hfail]
    · simp only [TM.addTimed, TM.addOp, TM.newId, RedoStore.insert, saveOp_store, hfail,
        if_true]
      exact saveOp_etxs_congr _ _ _ _ _ rfl
  · intro tm txId etx o rest hget hisT himm hfail
    have hget1 : getEtx ({ tm with locked := true } : TM).etxs txId = some etx := hget
    refine ⟨?_, ?_, ?_⟩ <;>
      simp only [TM.endTx, hget1, hisT, himm, endOps, Bool.false_eq_true, if_false,
        RedoStore.deleteId, hfail] <;>
      simp [getEtx_setEtx, hfail]
  · intro tm txId etx o rest hget hisT htimed hfail
    have hget1 : getEtx ({ tm with locked := true } : TM).etxs txId = some etx := hget
    refine ⟨?_, ?_, ?_⟩ <;>
      simp only [TM.endTx, hget1, hisT, htimed, endOps, if_true,
        RedoStore.deleteId, hfail] <;>
      simp [getEtx_setEtx, hfail]
  · intro tm tx rm opType e hget
    simp [TM.forgetTx, hget]

/-- Witness for the amended C4 in all five scenarios: AddNext and AddTimed
against a failing Insert, End popping an immediate and a timed operation
against a failing DeleteId, and Forget against a failing delete. -/
theorem C4_store_error_witness :
    (((TM.new failInsStore).addNext 100 "rmA" 1 11 200).1
      = some "store: insert failed") ∧
    (((TM.new failInsStore).addTimed 100 "rmA" 1 11 2000000000 200).1
      = some "store: insert failed") ∧
    ((((TM.new failDelStore).addNext 100 "rmA" 1 11 200).2.endTx 100).1
      = some "store: delete failed") ∧
    (((TM.mk [(100, { isTimed := true, active := true, sorted := true,
                      immediate := [],
                      timed := [{ id := 200, rmName := "rmB", due := 105,
                                  opType := 2, op := 12 }] })]
        200 failDelStore false).endTx 100).1
      = some "store: delete failed") ∧
    (((TM.new emptyStore).addNext 100 "rmA" 1 11 200).2.forgetTx 100 "rmB" 2).1 = none := by
  refine ⟨(C4_store_error_amended.1 (TM.new failInsStore) 100 "rmA" 1 11 200 rfl).1,
    (C4_store_error_amended.2.1 (TM.new failInsStore) 100 "rmA" 1 11 2000000000 200 rfl).1,
    ?_, ?_, ?_⟩
  · exact (C4_store_error_amended.2.2.1 ((TM.new failDelStore).addNext 100 "rmA" 1 11 200).2 100
      { isTimed := false, active := false, sorted := false,
        immediate := [{ id := 200, rmName := "rmA", due := 100, opType := 1, op := 11 }],
        timed := [] }
      { id := 200, rmName := "rmA", due := 100, opType := 1, op := 11 } [] rfl rfl rfl
      (by decide)).1
  · exact (C4_store_error_amended.2.2.2.1 (TM.mk
      [(100, { isTimed := true, active := true, sorted := true,
               immediate := [],
               timed := [{ id := 200, rmName := "rmB", due := 105,
                           opType := 2, op := 12 }] })]
        200 failDelStore false) 100
      { isTimed := true, active := true, sorted := true, immediate := [],
        timed := [{ id := 200, rmName := "rmB", due := 105, opType := 2, op := 12 }] }
      { id := 200, rmName := "rmB", due := 105, opType := 2, op := 12 } [] rfl rfl rfl
      (by decide)).1
  · exact C4_store_error_amended.2.2.2.2 ((TM.new emptyStore).addNext 100 "rmA" 1 11 200).2
      100 "rmB" 2
      { isTimed := false, active := false, sorted := false,
        immediate := [{ id := 200, rmName := "rmA", due := 100, opType := 1, op := 11 }],
        timed := [] } rfl

end Etx

namespace Etx

/-! ## C3: immediate priority over timed -/


/-- Every dispatch produced by a single `doNext` call carries the `timed`
flag of that call. -/
theorem doNext_trace_timed (tm : TM) (tx : Int) (timed : Bool) (nowNs : Int) :
    ∀ d ∈ (tm.doNext tx timed nowNs).2.1, d.timed = timed := by
  intro d hd
  simp only [TM.doNext] at hd
  split at hd
  · simp at hd
  · split at hd
    · split at hd
      · simp at hd
      · split at hd <;> simp at hd
    · split at hd
      · simp at hd
      · split at hd
        · simp at hd
          rw [hd]
        · split at hd
          · simp at hd
            rw [hd]
          · split at hd <;> simp at hd <;> rw [hd]

/-- Every dispatch produced by the `doNext` loop carries the loop's `timed`
flag. -/
theorem doLoop_trace_timed : ∀ (fuel : Nat) (tm : TM) (tx : Int) (timed : Bool)
    (nowNs : Int), ∀ d ∈ (tm.doLoop tx timed nowNs fuel).2, d.timed = timed := by
  intro fuel
  induction fuel with
  | zero => intro tm tx timed nowNs d hd; simp [TM.doLoop] at hd
  | succ n ih =>
    intro tm tx timed nowNs d hd
    have hnext := doNext_trace_timed tm tx timed nowNs
    unfold TM.doLoop at hd
    rcases hdo : tm.doNext tx timed nowNs with ⟨tm1, ds, more⟩
    rw [hdo] at hd hnext
    rcases more with _ | _
    · simp at hd
      exact hnext d hd
    · simp at hd
      rcases hd with hd | hd
      · exact hnext d hd
      · exact ih tm1 tx timed nowNs d hd

/-- C3 as stated is false: a worker tick dispatches a due timed operation of
a transaction that still has a pending immediate operation — the shipped
`doNext` (part_001 lines 346-359) takes the timed list without checking the
immediate list; only the unused draft variant (part_001 lines 892-897) has
the priority check. -/
theorem C3_immediate_priority_counterexample :
    ((getEtx ((((TM.new emptyStore).addNext 100 "rmA" 1 11 200).2.addTimed
        100 "rmB" 2 22 1000000000 201).2.etxs) 100).map
        (fun e => e.immediate.map (fun o => o.id)) = some [200]) ∧
    (((((TM.new emptyStore).addNext 100 "rmA" 1 11 200).2.addTimed
        100 "rmB" 2 22 1000000000 201).2.workerTick 2100000000 5).2.map
        (fun d => (d.id, d.timed)) = [(201, true)]) := by
  exact ⟨rfl, rfl⟩

/-- C3 amended: `Do` (and `End`, which in this version dispatches nothing at
all) never dispatches a timed operation — every dispatch of the immediate
loop carries `timed = false`; the background worker, however, dispatches due
timed operations regardless of pending immediate work (the priority check
exists only in the draft `doNext` variant).  -/
theorem C3_do_never_dispatches_timed_amended (tm : TM) (tx nowNs : Int) (fuel : Nat) :
    ∀ d ∈ (tm.do tx nowNs fuel).2.1, d.timed = false := by
  intro d hd
  exact doLoop_trace_timed fuel tm tx false nowNs d hd

/-- Witness for the amended C3: a `Do` dispatch with the `timed` flag false. -/
theorem C3_do_never_dispatches_timed_witness :
    (((TM.new emptyStore).addNext 100 "rmA" 1 11 200).2.do 100 1000 3).2.1.map
        (fun d => d.timed) = [false] ∧
    ({ tx := 100, id := 200, opType := 1, timed := false, op := 11 } : Disp).timed = false := by
  refine ⟨rfl, ?_⟩
  exact C3_do_never_dispatches_timed_amended
    ((TM.new emptyStore).addNext 100 "rmA" 1 11 200).2 100 1000 3
    { tx := 100, id := 200, opType := 1, timed := false, op := 11 } (by decide)

end Etx

namespace Etx

/-! ## Stable-sort lemmas for `sortByDue` -/

theorem insertDue_perm (a : EtxOp) (l : List EtxOp) :
    (insertDue a l).Perm (a :: l) := by
  induction l with
  | nil => simp [insertDue]
  | cons b l ih =>
    by_cases h : a.due ≤ b.due
    · simp [insertDue, h]
    · simp only [insertDue, h, if_false]
      exact (ih.cons b).trans (List.Perm.swap a b l)

theorem sortByDue_perm (l : List EtxOp) : (sortByDue l).Perm l := by
  induction l with
  | nil => simp [sortByDue]
  | cons a l ih =>
    exact (insertDue_perm a (sortByDue l)).trans (ih.cons a)

theorem insertDue_sorted (a : EtxOp) (l : List EtxOp)
    (h : l.Pairwise (fun p q => p.due ≤ q.due)) :
    (insertDue a l).Pairwise (fun p q => p.due ≤ q.due) := by
  induction l with
  | nil => simp [insertDue]
  | cons b l ih =>
    rcases List.pairwise_cons.mp h with ⟨hb, hl⟩
    by_cases hab : a.due ≤ b.due
    · simp only [insertDue, hab, if_true]
      refine List.pairwise_cons.mpr ⟨?_, h⟩
      intro x hx
      rcases List.mem_cons.mp hx with hx | hx
      · rw [hx]; exact hab
      · exact le_trans hab (hb x hx)
    · simp only [insertDue, hab, if_false]
      refine List.pairwise_cons.mpr ⟨?_, ih hl⟩
      intro x hx
      have := (insertDue_perm a l).mem_iff.mp hx
      rcases List.mem_cons.mp this with hx2 | hx2
      · rw [hx2]; omega
      · exact hb x hx2

theorem sortByDue_sorted (l : List EtxOp) :
    (sortByDue l).Pairwise (fun p q => p.due ≤ q.due) := by
  induction l with
  | nil => simp [sortByDue]
  | cons a l ih => exact insertDue_sorted a (sortByDue l) ih

theorem insertDue_filter_eq (a : EtxOp) (l : List EtxOp) (d : Int) (ha : a.due = d) :
    (insertDue a l).filter (fun o => decide (o.due = d))
      = a :: l.filter (fun o => decide (o.due = d)) := by
  induction l with
  | nil => simp [insertDue, List.filter, ha]
  | cons b l ih =>
    by_cases hab : a.due ≤ b.due
    · simp only [insertDue]
      rw [if_pos hab]
      simp [List.filter_cons, ha]
    · have hbd : ¬ (b.due = d) := by omega
      simp only [insertDue]
      rw [if_neg hab]
      simp only [List.filter_cons, decide_eq_true_eq, hbd, if_false, ih]

theorem insertDue_filter_ne (a : EtxOp) (l : List EtxOp) (d : Int) (ha : ¬ a.due = d) :
    (insertDue a l).filter (fun o => decide (o.due = d))
      = l.filter (fun o => decide (o.due = d)) := by
  induction l with
  | nil => simp [insertDue, List.filter, ha]
  | cons b l ih =>
    by_cases hab : a.due ≤ b.due
    · simp only [insertDue]
      rw [if_pos hab]
      simp [List.filter_cons, ha]
    · simp only [insertDue]
      rw [if_neg hab]
      simp only [List.filter_cons, ih]

/-- Stability of `sortByDue`: the subsequence of operations with any fixed
due time is unchanged, i.e. equal-due operations stay in append order. -/
theorem sortByDue_stable (l : List EtxOp) (d : Int) :
    (sortByDue l).filter (fun o => decide (o.due = d))
      = l.filter (fun o => decide (o.due = d)) := by
  induction l with
  | nil => rfl
  | cons a l ih =>
    by_cases ha : a.due = d
    · simp only [sortByDue, insertDue_filter_eq a _ d ha, ih, List.filter_cons]
      simp [ha]
    · simp only [sortByDue, insertDue_filter_ne a _ d ha, ih, List.filter_cons]
      simp [ha]

/-! ## More association-list lemmas -/

theorem setEtx_setEtx (l : List (Int × EtxOps)) (tx : Int) (v w : EtxOps) :
    setEtx (setEtx l tx v) tx w = setEtx l tx w := by
  induction l with
  | nil => simp [setEtx]
  | cons kv rest ih =>
    obtain ⟨k, u⟩ := kv
    by_cases hk : k = tx
    · simp [setEtx, hk]
    · simp [setEtx, hk, ih]

theorem delEtx_setEtx (l : List (Int × EtxOps)) (tx : Int) (v : EtxOps) :
    delEtx (setEtx l tx v) tx = delEtx l tx := by
  induction l with
  | nil => simp [setEtx, delEtx]
  | cons kv rest ih =>
    obtain ⟨k, u⟩ := kv
    by_cases hk : k = tx
    · simp [setEtx, delEtx, hk]
    · simp [setEtx, delEtx, hk, ih]

theorem getEtx_delEtx_ne (l : List (Int × EtxOps)) (tx tx2 : Int) (hne : tx2 ≠ tx) :
    getEtx (delEtx l tx) tx2 = getEtx l tx2 := by
  induction l with
  | nil => simp [delEtx]
  | cons kv rest ih =>
    obtain ⟨k, u⟩ := kv
    by_cases hk : k = tx
    · subst hk
      simp [delEtx, getEtx, Ne.symm hne]
    · simp [delEtx, getEtx, hk, ih]

theorem delEtx_sublist (l : List (Int × EtxOps)) (tx : Int) :
    (delEtx l tx).Sublist l := by
  induction l with
  | nil => simp [delEtx]
  | cons kv rest ih =>
    obtain ⟨k, u⟩ := kv
    by_cases hk : k = tx
    · simp only [delEtx, hk, if_true]
      exact List.sublist_cons_self (tx, u) rest
    · simp only [delEtx, hk, if_false]
      exact ih.cons₂ (k, u)

theorem getEtx_isSome_mem (l : List (Int × EtxOps)) (tx : Int) (e : EtxOps)
    (h : getEtx l tx = some e) : tx ∈ l.map Prod.fst := by
  induction l with
  | nil => simp [getEtx] at h
  | cons kv rest ih =>
    obtain ⟨k, u⟩ := kv
    simp only [getEtx] at h
    by_cases hk : k = tx
    · simp [hk]
    · simp only [hk, if_false] at h
      simp [ih h]

theorem getEtx_delEtx_self (l : List (Int × EtxOps)) (tx : Int)
    (h : (l.map Prod.fst).Nodup) : getEtx (delEtx l tx) tx = none := by
  induction l with
  | nil => simp [delEtx, getEtx]
  | cons kv rest ih =>
    obtain ⟨k, u⟩ := kv
    simp only [List.map_cons, List.nodup_cons] at h
    by_cases hk : k = tx
    · subst hk
      simp only [delEtx, if_true]
      cases hg : getEtx rest k with
      | none => rfl
      | some e => exact absurd (getEtx_isSome_mem rest k e hg) h.1
    · simp only [delEtx, hk, if_false, getEtx, hk, if_false]
      exact ih h.2

theorem mem_keys_setEtx (l : List (Int × EtxOps)) (tx : Int) (v : EtxOps) (k2 : Int) :
    k2 ∈ (setEtx l tx v).map Prod.fst ↔ (k2 ∈ l.map Prod.fst ∨ k2 = tx) := by
  induction l with
  | nil => simp [setEtx]
  | cons kv rest ih =>
    obtain ⟨k, u⟩ := kv
    by_cases hk : k = tx
    · subst hk
      simp only [setEtx, if_true, List.map_cons, List.mem_cons]
      tauto
    · simp only [setEtx, hk, if_false, List.map_cons, List.mem_cons, ih]
      tauto

theorem nodup_keys_setEtx (l : List (Int × EtxOps)) (tx : Int) (v : EtxOps)
    (h : (l.map Prod.fst).Nodup) : ((setEtx l tx v).map Prod.fst).Nodup := by
  induction l with
  | nil => simp [setEtx]
  | cons kv rest ih =>
    obtain ⟨k, u⟩ := kv
    simp only [List.map_cons, List.nodup_cons] at h
    by_cases hk : k = tx
    · subst hk
      simp only [setEtx, if_true, List.map_cons, List.nodup_cons]
      exact ⟨h.1, h.2⟩
    · simp only [setEtx, hk, if_false, List.map_cons, List.nodup_cons]
      refine ⟨?_, ih h.2⟩
      intro hmem
      rcases (mem_keys_setEtx rest tx v k).mp hmem with hh | hh
      · exact h.1 hh
      · exact hk hh

theorem nodup_keys_delEtx (l : List (Int × EtxOps)) (tx : Int)
    (h : (l.map Prod.fst).Nodup) : ((delEtx l tx).map Prod.fst).Nodup :=
  h.sublist ((delEtx_sublist l tx).map Prod.fst)

theorem eq_nil_of_all_getEtx_none (l : List (Int × EtxOps))
    (h : ∀ tx, getEtx l tx = none) : l = [] := by
  cases l with
  | nil => rfl
  | cons kv rest =>
    obtain ⟨k, u⟩ := kv
    have := h k
    simp [getEtx] at this

end Etx

namespace Etx

/-! ## Dispatch-step and loop characterisations -/

theorem doNext_immediate_step (tm : TM) (tx now : Int) (e : EtxOps) (o : EtxOp)
    (rest : List EtxOp) (h : getEtx tm.etxs tx = some e) (himm : e.immediate = o :: rest) :
    tm.doNext tx false now =
      ({ etxs := if rest = [] ∧ e.timed = [] then delEtx tm.etxs tx
                 else setEtx tm.etxs tx
                   { e with isTimed := false, active := false, immediate := rest },
         lastId := tm.lastId, store := (tm.store.deleteId o.id).2, locked := false },
       [{ tx := tx, id := o.id, opType := o.opType, timed := false, op := o.op }],
       decide (rest.length > 0)) := by
  have h1 : getEtx ({ tm with locked := true } : TM).etxs tx = some e := h
  have h2 : getEtx (setEtx tm.etxs tx { e with isTimed := false, active := true }) tx
      = some { e with isTimed := false, active := true } := getEtx_setEtx _ _ _
  simp [TM.doNext, TM.endTx, h1, h2, himm, endOps, setEtx_setEtx, getEtx_setEtx,
    delEtx_setEtx]
  by_cases hr : rest = [] <;> by_cases ht : e.timed = [] <;> simp [hr, ht]

theorem doNext_immediate_empty (tm : TM) (tx now : Int) (e : EtxOps)
    (h : getEtx tm.etxs tx = some e) (himm : e.immediate = []) :
    tm.doNext tx false now =
      ({ etxs := if e.timed = [] then delEtx tm.etxs tx else setEtx tm.etxs tx e,
         lastId := tm.lastId, store := tm.store, locked := false },
       [], false) := by
  have h1 : getEtx ({ tm with locked := true } : TM).etxs tx = some e := h
  have h2 : getEtx (setEtx tm.etxs tx e) tx = some e := getEtx_setEtx _ _ _
  simp [TM.doNext, h1, h2, himm, setEtx_setEtx, delEtx_setEtx]
  by_cases ht : e.timed = [] <;> simp [ht]

theorem doNext_no_entry (tm : TM) (tx now : Int) (timed : Bool)
    (h : getEtx tm.etxs tx = none) :
    tm.doNext tx timed now = ({ tm with locked := false }, [], false) := by
  have h1 : getEtx ({ tm with locked := true } : TM).etxs tx = none := h
  simp [TM.doNext, h1]

theorem doNext_timed_step (tm : TM) (tx now : Int) (e : EtxOps) (t1 : EtxOp)
    (trest : List EtxOp) (h : getEtx tm.etxs tx = some e) (hs : e.sorted = true)
    (ht : e.timed = t1 :: trest) (himm : e.immediate = []) (hdue : t1.due ≤ now) :
    tm.doNext tx true now =
      ({ etxs := if trest = [] then delEtx tm.etxs tx
                 else setEtx tm.etxs tx
                   { e with isTimed := true, active := false, timed := trest },
         lastId := tm.lastId, store := (tm.store.deleteId t1.id).2, locked := false },
       [{ tx := tx, id := t1.id, opType := t1.opType, timed := true, op := t1.op }],
       decide (trest.length > 0)) := by
  have h1 : getEtx ({ tm with locked := true } : TM).etxs tx = some e := h
  have h2 : getEtx (setEtx tm.etxs tx { e with isTimed := true, active := true }) tx
      = some { e with isTimed := true, active := true } := getEtx_setEtx _ _ _
  have hnd : ¬ (now < t1.due) := by omega
  simp [TM.doNext, TM.endTx, h1, h2, hs, ht, himm, hnd, endOps, setEtx_setEtx,
    getEtx_setEtx, delEtx_setEtx]
  by_cases hr : trest = [] <;> simp [hr]

theorem doNext_timed_empty (tm : TM) (tx now : Int) (e : EtxOps)
    (h : getEtx tm.etxs tx = some e) (hs : e.sorted = true)
    (ht : e.timed = []) (himm : e.immediate = []) :
    tm.doNext tx true now =
      ({ etxs := delEtx tm.etxs tx, lastId := tm.lastId, store := tm.store,
         locked := false }, [], false) := by
  have h1 : getEtx ({ tm with locked := true } : TM).etxs tx = some e := h
  have h2 : getEtx (setEtx tm.etxs tx e) tx = some e := getEtx_setEtx _ _ _
  simp [TM.doNext, h1, h2, hs, ht, himm, setEtx_setEtx, delEtx_setEtx]

theorem doNext_timed_unsorted (tm : TM) (tx now : Int) (e : EtxOps)
    (h : getEtx tm.etxs tx = some e) (hs : e.sorted = false) :
    tm.doNext tx true now =
      ({ tm with
          etxs := setEtx tm.etxs tx { e with timed := sortByDue e.timed, sorted := true } } :
        TM).doNext tx true now := by
  have h1 : getEtx ({ tm with locked := true } : TM).etxs tx = some e := h
  have h2 : getEtx (setEtx tm.etxs tx { e with timed := sortByDue e.timed, sorted := true }) tx
      = some { e with timed := sortByDue e.timed, sorted := true } := getEtx_setEtx _ _ _
  simp [TM.doNext, h1, h2, hs, setEtx_setEtx]


theorem set_locked_false (tm : TM) (hl : tm.locked = false) :
    ({ tm with locked := false } : TM) = tm := by
  cases tm
  simp_all

theorem doLoop_no_entry (fuel : Nat) (tm : TM) (tx now : Int) (timed : Bool)
    (h : getEtx tm.etxs tx = none) (hl : tm.locked = false) :
    tm.doLoop tx timed now fuel = (tm, []) := by
  cases fuel with
  | zero => rfl
  | succ n =>
    unfold TM.doLoop
    rw [doNext_no_entry tm tx now timed h]
    simp [set_locked_false tm hl]

theorem ops_drop_fields (e : EtxOps) (ha : e.active = false) (hit : e.isTimed = false)
    (l : List EtxOp) :
    ({ e with isTimed := false, active := false, immediate := l } : EtxOps)
      = { e with immediate := l } := by
  cases e
  simp_all

/-- The synchronous immediate loop of `Do` dispatches exactly the cached
immediate list, in order, deleting each redo record; the transaction entry
is left with an empty immediate list, or removed when no timed work
remains. -/
theorem doLoop_immediate : ∀ (imm : List EtxOp) (fuel : Nat) (tm : TM) (tx now : Int)
    (e : EtxOps), getEtx tm.etxs tx = some e → e.immediate = imm →
    e.active = false → e.isTimed = false → imm.length < fuel →
    tm.doLoop tx false now fuel =
      ({ etxs := if e.timed = [] then delEtx tm.etxs tx
                 else setEtx tm.etxs tx { e with immediate := [] },
         lastId := tm.lastId,
         store := tm.store.deleteAllLogged (imm.map (fun o => o.id)),
         locked := false },
       imm.map (fun o => { tx := tx, id := o.id, opType := o.opType, timed := false, op := o.op })) := by
  intro imm
  induction imm with
  | nil =>
    intro fuel tm tx now e h himm ha hit hfuel
    cases fuel with
    | zero => omega
    | succ n =>
      unfold TM.doLoop
      rw [doNext_immediate_empty tm tx now e h himm]
      have he : ({ e with immediate := ([] : List EtxOp) } : EtxOps) = e := by
        cases e
        simp_all
      simp [RedoStore.deleteAllLogged, he]
  | cons o rest ih =>
    intro fuel tm tx now e h himm ha hit hfuel
    cases fuel with
    | zero => omega
    | succ n =>
      unfold TM.doLoop
      rw [doNext_immediate_step tm tx now e o rest h himm]
      simp only [gt_iff_lt, decide_eq_true_eq]
      by_cases hr : rest = []
      · subst hr
        rw [if_neg (by simp)]
        rw [ops_drop_fields e ha hit]
        simp [RedoStore.deleteAllLogged]
      · have hlen : 0 < rest.length := List.length_pos_of_ne_nil hr
        rw [if_pos hlen]
        have hcond : ¬ (rest = [] ∧ e.timed = []) := fun hc => hr hc.1
        rw [if_neg hcond]
        have h1 : getEtx (setEtx tm.etxs tx
            { e with isTimed := false, active := false, immediate := rest }) tx
            = some { e with isTimed := false, active := false, immediate := rest } :=
          getEtx_setEtx _ _ _
        rw [ih n _ tx now { e with isTimed := false, active := false, immediate := rest }
          h1 rfl rfl rfl (by simp at hfuel ⊢; omega)]
        simp only [setEtx_setEtx, delEtx_setEtx]
        rw [ops_drop_fields e ha hit]
        constructor

/-- The timed loop on an already-sorted entry with empty immediate list and
everything due dispatches the whole timed list in order and removes the
transaction. -/
theorem doLoop_timed_sorted : ∀ (tl : List EtxOp) (fuel : Nat) (tm : TM) (tx now : Int)
    (e : EtxOps), getEtx tm.etxs tx = some e → e.timed = tl → e.sorted = true →
    e.immediate = [] → (∀ o ∈ tl, o.due ≤ now) → tl.length < fuel →
    tm.doLoop tx true now fuel =
      ({ etxs := delEtx tm.etxs tx, lastId := tm.lastId,
         store := tm.store.deleteAllLogged (tl.map (fun o => o.id)), locked := false },
       tl.map (fun o => { tx := tx, id := o.id, opType := o.opType, timed := true, op := o.op })) := by
  intro tl
  induction tl with
  | nil =>
    intro fuel tm tx now e h ht hs himm hdue hfuel
    cases fuel with
    | zero => omega
    | succ n =>
      unfold TM.doLoop
      rw [doNext_timed_empty tm tx now e h hs ht himm]
      simp [RedoStore.deleteAllLogged]
  | cons t1 trest ih =>
    intro fuel tm tx now e h ht hs himm hdue hfuel
    cases fuel with
    | zero => omega
    | succ n =>
      unfold TM.doLoop
      rw [doNext_timed_step tm tx now e t1 trest h hs ht himm
        (hdue t1 (List.mem_cons_self t1 trest))]
      simp only [gt_iff_lt, decide_eq_true_eq]
      by_cases hr : trest = []
      · subst hr
        rw [if_neg (by simp), if_pos rfl]
        simp [RedoStore.deleteAllLogged]
      · have hlen : 0 < trest.length := List.length_pos_of_ne_nil hr
        rw [if_pos hlen, if_neg hr]
        have h1 : getEtx (setEtx tm.etxs tx
            { e with isTimed := true, active := false, timed := trest }) tx
            = some { e with isTimed := true, active := false, timed := trest } :=
          getEtx_setEtx _ _ _
        rw [ih n _ tx now { e with isTimed := true, active := false, timed := trest }
          h1 rfl hs himm
          (fun o ho => hdue o (List.mem_cons_of_mem t1 ho))
          (by simp at hfuel ⊢; omega)]
        simp only [setEtx_setEtx, delEtx_setEtx]
        constructor

/-- The timed loop on an unsorted entry first sorts (stably) and then
behaves like the sorted loop. -/
theorem doLoop_timed_unsorted (fuel : Nat) (tm : TM) (tx now : Int) (e : EtxOps)
    (h : getEtx tm.etxs tx = some e) (hs : e.sorted = false) (himm : e.immediate = [])
    (hdue : ∀ o ∈ e.timed, o.due ≤ now) (hfuel : e.timed.length < fuel) :
    tm.doLoop tx true now fuel =
      ({ etxs := delEtx tm.etxs tx, lastId := tm.lastId,
         store := tm.store.deleteAllLogged ((sortByDue e.timed).map (fun o => o.id)),
         locked := false },
       (sortByDue e.timed).map
         (fun o => { tx := tx, id := o.id, opType := o.opType, timed := true, op := o.op })) := by
  cases fuel with
  | zero => omega
  | succ n =>
    have hstep : tm.doLoop tx true now (n + 1) =
        ({ tm with
            etxs := setEtx tm.etxs tx { e with timed := sortByDue e.timed, sorted := true } } :
          TM).doLoop tx true now (n + 1) := by
      conv_lhs => unfold TM.doLoop
      conv_rhs => unfold TM.doLoop
      rw [doNext_timed_unsorted tm tx now e h hs]
    rw [hstep]
    have h1 : getEtx (setEtx tm.etxs tx
        { e with timed := sortByDue e.timed, sorted := true }) tx
        = some { e with timed := sortByDue e.timed, sorted := true } := getEtx_setEtx _ _ _
    rw [doLoop_timed_sorted (sortByDue e.timed) (n + 1) _ tx now
      { e with timed := sortByDue e.timed, sorted := true } h1 rfl rfl himm
      (fun o ho => hdue o ((sortByDue_perm e.timed).mem_iff.mp ho))
      (by rw [(sortByDue_perm e.timed).length_eq]; exact hfuel)]
    simp only [setEtx_setEtx, delEtx_setEtx]

end Etx

namespace Etx

theorem deleteAllLogged_append (s : RedoStore) (a b : List Int) :
    s.deleteAllLogged (a ++ b) = (s.deleteAllLogged a).deleteAllLogged b := by
  induction a generalizing s with
  | nil => rfl
  | cons i rest ih => simp [RedoStore.deleteAllLogged, ih]

theorem mem_keys_exists_getEtx (l : List (Int × EtxOps)) (tx : Int)
    (h : tx ∈ l.map Prod.fst) : ∃ e, getEtx l tx = some e := by
  induction l with
  | nil => simp at h
  | cons kv rest ih =>
    obtain ⟨k, u⟩ := kv
    by_cases hk : k = tx
    · exact ⟨u, by simp [getEtx, hk]⟩
    · simp only [List.map_cons, List.mem_cons] at h
      rcases h with h | h
      · exact absurd h.symm hk
      · obtain ⟨e, he⟩ := ih h
        exact ⟨e, by simp [getEtx, hk, he]⟩

/-- The `Recover` redispatch phase over a list of distinct transactions:
state and trace characterisation. -/
theorem doAll_spec : ∀ (txs : List Int) (tm : TM) (now : Int) (fuel : Nat),
    tm.locked = false → txs.Nodup →
    (tm.etxs.map Prod.fst).Nodup →
    (∀ tx e, getEtx tm.etxs tx = some e →
       e.active = false ∧ e.isTimed = false ∧ e.immediate.length < fuel) →
    (tm.doAll now fuel txs).1.lastId = tm.lastId ∧
    (tm.doAll now fuel txs).1.locked = false ∧
    ((tm.doAll now fuel txs).1.etxs.map Prod.fst).Nodup ∧
    (∀ tx2 e2, getEtx (tm.doAll now fuel txs).1.etxs tx2 = some e2 →
       e2.active = false ∧ e2.isTimed = false ∧ e2.immediate.length < fuel) ∧
    (∀ tx2, getEtx (tm.doAll now fuel txs).1.etxs tx2 =
       if tx2 ∈ txs then
         match getEtx tm.etxs tx2 with
         | none => none
         | some e => if e.timed = [] then none else some { e with immediate := [] }
       else getEtx tm.etxs tx2) ∧
    (tm.doAll now fuel txs).1.store = tm.store.deleteAllLogged
       (txs.map (fun t => match getEtx tm.etxs t with
         | none => ([] : List Int)
         | some e => e.immediate.map (fun o => o.id))).flatten ∧
    (tm.doAll now fuel txs).2 = (txs.map (fun t => match getEtx tm.etxs t with
         | none => ([] : List Disp)
         | some e => e.immediate.map
             (fun o => { tx := t, id := o.id, opType := o.opType, timed := false, op := o.op }))).flatten := by
  intro txs
  induction txs with
  | nil =>
    intro tm now fuel hl hnd hknd hq
    refine ⟨rfl, hl, hknd, hq, ?_, ?_, rfl⟩
    · intro tx2; simp [TM.doAll]
    · simp [TM.doAll, RedoStore.deleteAllLogged]
  | cons t ts ih =>
    intro tm now fuel hl hnd hknd hq
    simp only [List.nodup_cons] at hnd
    cases hget : getEtx tm.etxs t with
    | none =>
      have hstep : tm.doLoop t false now fuel = (tm, []) :=
        doLoop_no_entry fuel tm t now false hget hl
      have hall : tm.doAll now fuel (t :: ts) =
          ((tm.doAll now fuel ts).1, [] ++ (tm.doAll now fuel ts).2) := by
        conv_lhs => unfold TM.doAll
        rw [hstep]
      obtain ⟨ih1, ih2, ih3, ih4, ih5, ih6, ih7⟩ := ih tm now fuel hl hnd.2 hknd hq
      rw [hall]
      refine ⟨ih1, ih2, ih3, ih4, ?_, ?_, ?_⟩
      · intro tx2
        rw [ih5 tx2]
        by_cases h2 : tx2 = t
        · subst h2
          simp [hnd.1, hget]
        · simp [List.mem_cons, h2]
      · rw [ih6]
        simp [hget]
      · rw [ih7]
        simp [hget]
    | some e =>
      obtain ⟨hqa, hqi, hqlen⟩ := hq t e hget
      have hfuelpos : 0 < fuel := by omega
      have hstep := doLoop_immediate e.immediate fuel tm t now e hget rfl hqa hqi hqlen
      set E : List (Int × EtxOps) :=
        if e.timed = [] then delEtx tm.etxs t
        else setEtx tm.etxs t { e with immediate := [] } with hE
      set tmA : TM :=
        { etxs := E, lastId := tm.lastId,
          store := tm.store.deleteAllLogged (e.immediate.map (fun o => o.id)),
          locked := false } with htmA
      set ds : List Disp := e.immediate.map
        (fun o => { tx := t, id := o.id, opType := o.opType, timed := false, op := o.op }) with hds
      have hall : tm.doAll now fuel (t :: ts) =
          ((tmA.doAll now fuel ts).1, ds ++ (tmA.doAll now fuel ts).2) := by
        conv_lhs => unfold TM.doAll
        rw [hstep]
      -- facts about the intermediate state
      have hframe : ∀ tx2, tx2 ≠ t → getEtx tmA.etxs tx2 = getEtx tm.etxs tx2 := by
        intro tx2 h2
        rw [htmA]
        simp only [hE]
        by_cases htd : e.timed = []
        · simp only [htd, if_true]
          exact getEtx_delEtx_ne tm.etxs t tx2 h2
        · simp only [htd, if_false]
          exact getEtx_setEtx_ne tm.etxs t tx2 _ (Ne.symm h2)
      have hat : getEtx tmA.etxs t =
          if e.timed = [] then none else some { e with immediate := [] } := by
        rw [htmA]
        simp only [hE]
        by_cases htd : e.timed = []
        · simp only [htd, if_true]
          exact getEtx_delEtx_self tm.etxs t hknd
        · simp only [htd, if_false]
          exact getEtx_setEtx tm.etxs t _
      have hkndA : (tmA.etxs.map Prod.fst).Nodup := by
        rw [htmA]
        simp only [hE]
        by_cases htd : e.timed = []
        · simp only [htd, if_true]
          exact nodup_keys_delEtx tm.etxs t hknd
        · simp only [htd, if_false]
          exact nodup_keys_setEtx tm.etxs t _ hknd
      have hqA : ∀ tx2 e2, getEtx tmA.etxs tx2 = some e2 →
          e2.active = false ∧ e2.isTimed = false ∧ e2.immediate.length < fuel := by
        intro tx2 e2 h2
        by_cases htx : tx2 = t
        · subst htx
          rw [hat] at h2
          by_cases htd : e.timed = []
          · simp [htd] at h2
          · simp only [htd, if_false, Option.some.injEq] at h2
            subst h2
            exact ⟨hqa, hqi, by simpa using hfuelpos⟩
        · rw [hframe tx2 htx] at h2
          exact hq tx2 e2 h2
      obtain ⟨ih1, ih2, ih3, ih4, ih5, ih6, ih7⟩ := ih tmA now fuel rfl hnd.2 hkndA hqA
      have hmapcongr : ∀ (β : Type) (f : Int → Option EtxOps → β),
          ts.map (fun t2 => f t2 (getEtx tmA.etxs t2))
            = ts.map (fun t2 => f t2 (getEtx tm.etxs t2)) := by
        intro β f
        apply List.map_congr_left
        intro t2 ht2
        rw [hframe t2 (fun hc => hnd.1 (hc ▸ ht2))]
      rw [hall]
      refine ⟨?_, ih2, ih3, ih4, ?_, ?_, ?_⟩
      · rw [ih1, htmA]
      · intro tx2
        rw [ih5 tx2]
        by_cases h2 : tx2 = t
        · subst h2
          rw [if_neg hnd.1, hat]
          simp [hget]
        · by_cases h3 : tx2 ∈ ts
          · rw [if_pos h3, hframe tx2 h2, if_pos (by simp [List.mem_cons, h3])]
          · rw [if_neg h3, hframe tx2 h2, if_neg (by simp [List.mem_cons, h2, h3])]
      · rw [ih6]
        have hc := hmapcongr (List Int) (fun t2 og => match og with
          | none => ([] : List Int)
          | some e2 => e2.immediate.map (fun o => o.id))
        rw [hc, htmA]
        simp only [List.map_cons, List.flatten_cons, hget]
        rw [deleteAllLogged_append]
      · rw [ih7]
        have hc := hmapcongr (List Disp) (fun t2 og => match og with
          | none => ([] : List Disp)
          | some e2 => e2.immediate.map
              (fun o => { tx := t2, id := o.id, opType := o.opType, timed := false, op := o.op }))
        rw [hc]
        simp only [List.map_cons, List.flatten_cons, hget]


/-- One worker tick over a list of distinct transactions: state and trace
characterisation.  Every processed transaction is dispatched in full (its
entry is quiescent, its operations all due) and removed. -/
theorem tickTxs_spec : ∀ (txs : List Int) (tm : TM) (now : Int) (fuel : Nat),
    tm.locked = false → txs.Nodup →
    (tm.etxs.map Prod.fst).Nodup →
    (∀ tx e, getEtx tm.etxs tx = some e →
       e.immediate = [] ∧ e.sorted = false ∧ (∀ o ∈ e.timed, o.due ≤ now) ∧
       e.timed.length < fuel) →
    (tm.tickTxs now fuel txs).1.lastId = tm.lastId ∧
    (tm.tickTxs now fuel txs).1.locked = false ∧
    ((tm.tickTxs now fuel txs).1.etxs.map Prod.fst).Nodup ∧
    (∀ tx2, getEtx (tm.tickTxs now fuel txs).1.etxs tx2 =
       if tx2 ∈ txs then none else getEtx tm.etxs tx2) ∧
    (tm.tickTxs now fuel txs).1.store = tm.store.deleteAllLogged
       (txs.map (fun t => match getEtx tm.etxs t with
         | none => ([] : List Int)
         | some e => (sortByDue e.timed).map (fun o => o.id))).flatten ∧
    (tm.tickTxs now fuel txs).2 = (txs.map (fun t => match getEtx tm.etxs t with
         | none => ([] : List Disp)
         | some e => (sortByDue e.timed).map
             (fun o => { tx := t, id := o.id, opType := o.opType, timed := true, op := o.op }))).flatten := by
  intro txs
  induction txs with
  | nil =>
    intro tm now fuel hl hnd hknd hq
    refine ⟨rfl, hl, hknd, ?_, ?_, rfl⟩
    · intro tx2; simp [TM.tickTxs]
    · simp [TM.tickTxs, RedoStore.deleteAllLogged]
  | cons t ts ih =>
    intro tm now fuel hl hnd hknd hq
    simp only [List.nodup_cons] at hnd
    cases hget : getEtx tm.etxs t with
    | none =>
      have hstep : tm.doLoop t true now fuel = (tm, []) :=
        doLoop_no_entry fuel tm t now true hget hl
      have hall : tm.tickTxs now fuel (t :: ts) =
          ((tm.tickTxs now fuel ts).1, [] ++ (tm.tickTxs now fuel ts).2) := by
        conv_lhs => unfold TM.tickTxs
        rw [hstep]
      obtain ⟨ih1, ih2, ih3, ih4, ih5, ih6⟩ := ih tm now fuel hl hnd.2 hknd hq
      rw [hall]
      refine ⟨ih1, ih2, ih3, ?_, ?_, ?_⟩
      · intro tx2
        rw [ih4 tx2]
        by_cases h2 : tx2 = t
        · subst h2
          simp [hnd.1, hget]
        · simp [List.mem_cons, h2]
      · rw [ih5]
        simp [hget]
      · rw [ih6]
        simp [hget]
    | some e =>
      obtain ⟨hqi, hqs, hqd, hqlen⟩ := hq t e hget
      have hstep := doLoop_timed_unsorted fuel tm t now e hget hqs hqi hqd hqlen
      set tmA : TM :=
        { etxs := delEtx tm.etxs t, lastId := tm.lastId,
          store := tm.store.deleteAllLogged ((sortByDue e.timed).map (fun o => o.id)),
          locked := false } with htmA
      set ds : List Disp := (sortByDue e.timed).map
        (fun o => { tx := t, id := o.id, opType := o.opType, timed := true, op := o.op }) with hds
      have hall : tm.tickTxs now fuel (t :: ts) =
          ((tmA.tickTxs now fuel ts).1, ds ++ (tmA.tickTxs now fuel ts).2) := by
        conv_lhs => unfold TM.tickTxs
        rw [hstep]
      have hframe : ∀ tx2, tx2 ≠ t → getEtx tmA.etxs tx2 = getEtx tm.etxs tx2 := by
        intro tx2 h2
        rw [htmA]
        exact getEtx_delEtx_ne tm.etxs t tx2 h2
      have hat : getEtx tmA.etxs t = none := by
        rw [htmA]
        exact getEtx_delEtx_self tm.etxs t hknd
      have hkndA : (tmA.etxs.map Prod.fst).Nodup := by
        rw [htmA]
        exact nodup_keys_delEtx tm.etxs t hknd
      have hqA : ∀ tx2 e2, getEtx tmA.etxs tx2 = some e2 →
          e2.immediate = [] ∧ e2.sorted = false ∧ (∀ o ∈ e2.timed, o.due ≤ now) ∧
          e2.timed.length < fuel := by
        intro tx2 e2 h2
        by_cases htx : tx2 = t
        · subst htx
          rw [hat] at h2
          exact absurd h2 (by simp)
        · rw [hframe tx2 htx] at h2
          exact hq tx2 e2 h2
      obtain ⟨ih1, ih2, ih3, ih4, ih5, ih6⟩ := ih tmA now fuel rfl hnd.2 hkndA hqA
      have hmapcongr : ∀ (β : Type) (f : Int → Option EtxOps → β),
          ts.map (fun t2 => f t2 (getEtx tmA.etxs t2))
            = ts.map (fun t2 => f t2 (getEtx tm.etxs t2)) := by
        intro β f
        apply List.map_congr_left
        intro t2 ht2
        rw [hframe t2 (fun hc => hnd.1 (hc ▸ ht2))]
      rw [hall]
      refine ⟨?_, ih2, ih3, ?_, ?_, ?_⟩
      · rw [ih1, htmA]
      · intro tx2
        rw [ih4 tx2]
        by_cases h2 : tx2 = t
        · subst h2
          rw [if_neg hnd.1, hat, if_pos (List.mem_cons_self tx2 ts)]
        · by_cases h3 : tx2 ∈ ts
          · rw [if_pos h3, if_pos (by simp [List.mem_cons, h3])]
          · rw [if_neg h3, hframe tx2 h2, if_neg (by simp [List.mem_cons, h2, h3])]
      · rw [ih5]
        have hc := hmapcongr (List Int) (fun t2 og => match og with
          | none => ([] : List Int)
          | some e2 => (sortByDue e2.timed).map (fun o => o.id))
        rw [hc, htmA]
        simp only [List.map_cons, List.flatten_cons, hget]
        rw [deleteAllLogged_append]
      · rw [ih6]
        have hc := hmapcongr (List Disp) (fun t2 og => match og with
          | none => ([] : List Disp)
          | some e2 => (sortByDue e2.timed).map
              (fun o => { tx := t2, id := o.id, opType := o.opType, timed := true, op := o.op }))
        rw [hc]
        simp only [List.map_cons, List.flatten_cons, hget]


/-! ## The add phase and its durable records -/

/-- One call of the C1/C2 scenario: `AddNext` (when `timed = false`) or
`AddTimed` with duration `afterNs`. -/
structure AddCall where
  tx : Int
  rmName : String
  timed : Bool
  afterNs : Int
  opType : Int
  op : Int
deriving Repr, DecidableEq

/-- Apply one add call at the given clock reading. -/
def applyAdd (tm : TM) (c : AddCall) (nowNs : Int) : TM :=
  if c.timed then (tm.addTimed c.tx c.rmName c.opType c.op c.afterNs nowNs).2
  else (tm.addNext c.tx c.rmName c.opType c.op nowNs).2

/-- Run a sequence of add calls, consuming one clock reading each. -/
def runAdds (tm : TM) (clock : Nat → Int) (k : Nat) : List AddCall → TM
  | [] => tm
  | c :: rest => runAdds (applyAdd tm c (clock k)) clock (k + 1) rest

/-- The redo record an add call inserts, given its assigned id. -/
def redoOfAdd (c : AddCall) (id : Int) : Redo :=
  { id := id, tx := c.tx, manager := c.rmName,
    redoType := if c.timed then redoTimed else redoNext,
    delay := if c.timed then delayOfDuration c.afterNs else 0,
    opType := c.opType, operation := c.op }

/-- Pure replay of the ids assigned by `newId` along the add sequence,
yielding the inserted redo records in insertion order. -/
def addRecs (clock : Nat → Int) : Nat → Int → List AddCall → List Redo
  | _, _, [] => []
  | k, lastId, c :: rest =>
    let id := if clock k = lastId then clock k + 1 else clock k
    redoOfAdd c id :: addRecs clock (k + 1) id rest

/-- The last id issued after the add sequence. -/
def lastIdAfter (clock : Nat → Int) : Nat → Int → List AddCall → Int
  | _, lastId, [] => lastId
  | k, lastId, _ :: rest =>
    lastIdAfter clock (k + 1) (if clock k = lastId then clock k + 1 else clock k) rest

/-- The cached operation reconstructed from a redo record, with its due time
recomputed as `Timestamp(tx) + Delay` seconds — the same expression `addOp`
caches at add time. -/
def opOfRedo (r : Redo) : EtxOp :=
  { id := r.id, rmName := r.manager, due := Timestamp r.tx + r.delay * 1000000000,
    opType := r.opType, op := r.operation }

/-- The cache produced by replaying records through `saveOp`, as both the
add phase and `Recover` do. -/
def loadCache (l : List (Int × EtxOps)) : List Redo → List (Int × EtxOps)
  | [] => l
  | r :: rest => loadCache (saveOpList l r.tx r.redoType (opOfRedo r)) rest

/-- The add phase caches exactly the replay of its records and appends those
records to the store. -/
theorem runAdds_spec : ∀ (adds : List AddCall) (tm : TM) (clock : Nat → Int) (k : Nat),
    tm.store.failInsert = false → tm.locked = false →
    runAdds tm clock k adds =
      { etxs := loadCache tm.etxs (addRecs clock k tm.lastId adds),
        lastId := lastIdAfter clock k tm.lastId adds,
        store := { tm.store with recs := tm.store.recs ++ addRecs clock k tm.lastId adds },
        locked := false } := by
  intro adds
  induction adds with
  | nil =>
    intro tm clock k hfi hl
    show tm = _
    cases tm with
    | mk etxs lastId store locked =>
      cases store
      simp_all [loadCache, addRecs, lastIdAfter]
  | cons c rest ih =>
    intro tm clock k hfi hl
    have hstep : applyAdd tm c (clock k) =
        { etxs := saveOpList tm.etxs c.tx (if c.timed then redoTimed else redoNext)
            (opOfRedo (redoOfAdd c (if clock k = tm.lastId then clock k + 1 else clock k))),
          lastId := if clock k = tm.lastId then clock k + 1 else clock k,
          store := { tm.store with recs := tm.store.recs ++
            [redoOfAdd c (if clock k = tm.lastId then clock k + 1 else clock k)] },
          locked := false } := by
      cases hc : c.timed <;>
        simp [applyAdd, hc, TM.addTimed, TM.addNext, TM.addOp, TM.newId, TM.saveOp,
          RedoStore.insert, hfi, redoOfAdd, opOfRedo, Timestamp]
    show runAdds (applyAdd tm c (clock k)) clock (k + 1) rest = _
    rw [hstep]
    rw [ih { etxs := saveOpList tm.etxs c.tx (if c.timed then redoTimed else redoNext)
               (opOfRedo (redoOfAdd c (if clock k = tm.lastId then clock k + 1 else clock k))),
             lastId := if clock k = tm.lastId then clock k + 1 else clock k,
             store := { tm.store with recs := tm.store.recs ++
               [redoOfAdd c (if clock k = tm.lastId then clock k + 1 else clock k)] },
             locked := false } clock (k + 1) hfi rfl]
    simp [addRecs, lastIdAfter, loadCache, redoOfAdd]


/-! ## The recovery replay -/

theorem saveOpList_getEtx_ne (l : List (Int × EtxOps)) (tx tmType : Int) (o : EtxOp)
    (tx2 : Int) (h : tx ≠ tx2) :
    getEtx (saveOpList l tx tmType o) tx2 = getEtx l tx2 := by
  unfold saveOpList
  simp only [redoNext, redoTimed]
  cases getEtx l tx <;>
    by_cases h1 : tmType = 1 <;> by_cases h2 : tmType = 2 <;>
      simp [h1, h2, getEtx_setEtx_ne _ _ _ _ h]

theorem saveOpList_getEtx_next (l : List (Int × EtxOps)) (tx : Int) (o : EtxOp) :
    getEtx (saveOpList l tx redoNext o) tx =
      some (match getEtx l tx with
        | some e => { e with immediate := e.immediate ++ [o] }
        | none => { isTimed := false, active := false, sorted := false,
                    immediate := [o], timed := [] }) := by
  unfold saveOpList
  cases getEtx l tx <;> simp [redoNext, getEtx_setEtx]

theorem saveOpList_getEtx_timed (l : List (Int × EtxOps)) (tx : Int) (o : EtxOp) :
    getEtx (saveOpList l tx redoTimed o) tx =
      some (match getEtx l tx with
        | some e => { e with timed := e.timed ++ [o], sorted := false }
        | none => { isTimed := false, active := false, sorted := false,
                    immediate := [], timed := [o] }) := by
  unfold saveOpList
  cases getEtx l tx <;> simp [redoNext, redoTimed, getEtx_setEtx]

theorem nodup_keys_saveOpList (l : List (Int × EtxOps)) (tx tmType : Int) (o : EtxOp)
    (h : (l.map Prod.fst).Nodup) : ((saveOpList l tx tmType o).map Prod.fst).Nodup := by
  unfold saveOpList
  simp only [redoNext, redoTimed]
  cases getEtx l tx <;>
    by_cases h1 : tmType = 1 <;> by_cases h2 : tmType = 2 <;>
      simp [h1, h2, nodup_keys_setEtx, nodup_keys_setEtx _ _ _ h,
        nodup_keys_setEtx _ tx _ (nodup_keys_setEtx _ _ _ h), h]

theorem nodup_keys_loadCache : ∀ (recs : List Redo) (l : List (Int × EtxOps)),
    (l.map Prod.fst).Nodup → ((loadCache l recs).map Prod.fst).Nodup := by
  intro recs
  induction recs with
  | nil => intro l h; exact h
  | cons r rest ih =>
    intro l h
    exact ih _ (nodup_keys_saveOpList l r.tx r.redoType (opOfRedo r) h)

/-- Replaying well-typed records accumulates, per transaction, the immediate
and timed operations of that transaction's records, in record order; fresh
entries are quiescent and unsorted. -/
theorem loadCache_getEtx : ∀ (recs : List Redo) (l : List (Int × EtxOps)) (tx : Int),
    (∀ r ∈ recs, r.redoType = redoNext ∨ r.redoType = redoTimed) →
    getEtx (loadCache l recs) tx =
      match getEtx l tx with
      | some e =>
        some { e with
          immediate := e.immediate ++
            ((recs.filter (fun r => decide (r.tx = tx) && decide (r.redoType = redoNext))).map opOfRedo),
          timed := e.timed ++
            ((recs.filter (fun r => decide (r.tx = tx) && decide (r.redoType = redoTimed))).map opOfRedo),
          sorted := e.sorted &&
            ((recs.filter (fun r => decide (r.tx = tx) && decide (r.redoType = redoTimed))).isEmpty) }
      | none =>
        if (recs.filter (fun r => decide (r.tx = tx))).isEmpty then none
        else some
          { isTimed := false, active := false, sorted := false,
            immediate :=
              ((recs.filter (fun r => decide (r.tx = tx) && decide (r.redoType = redoNext))).map opOfRedo),
            timed :=
              ((recs.filter (fun r => decide (r.tx = tx) && decide (r.redoType = redoTimed))).map opOfRedo) } := by
  intro recs
  induction recs with
  | nil =>
    intro l tx hty
    cases hg : getEtx l tx <;> simp [loadCache, hg]
  | cons r rest ih =>
    intro l tx hty
    have hstep : loadCache l (r :: rest)
        = loadCache (saveOpList l r.tx r.redoType (opOfRedo r)) rest := rfl
    rw [hstep, ih _ tx (fun r2 h2 => hty r2 (List.mem_cons_of_mem r h2))]
    by_cases htx : r.tx = tx
    · subst htx
      rcases hty r (List.mem_cons_self r rest) with hk | hk <;> rw [hk]
      · rw [saveOpList_getEtx_next]
        cases hg : getEtx l r.tx with
        | none =>
          simp [List.filter_cons, redoNext, redoTimed, hg, hk]
        | some e =>
          simp [List.filter_cons, redoNext, redoTimed, hg, hk]
      · rw [saveOpList_getEtx_timed]
        cases hg : getEtx l r.tx with
        | none =>
          simp [List.filter_cons, redoNext, redoTimed, hg, hk]
        | some e =>
          simp [List.filter_cons, redoNext, redoTimed, hg, hk]
    · rw [saveOpList_getEtx_ne l r.tx r.redoType (opOfRedo r) tx htx]
      have hf1 : ∀ (ty : Int), (r :: rest).filter
          (fun r2 => decide (r2.tx = tx) && decide (r2.redoType = ty))
          = rest.filter (fun r2 => decide (r2.tx = tx) && decide (r2.redoType = ty)) := by
        intro ty
        rw [List.filter_cons_of_neg (by simp [htx])]
      have hf2 : (r :: rest).filter (fun r2 => decide (r2.tx = tx))
          = rest.filter (fun r2 => decide (r2.tx = tx)) := by
        rw [List.filter_cons_of_neg (by simp [htx])]
      rw [hf1, hf1, hf2]


/-- `All()` returns the records unchanged when their ids are already
strictly increasing (as insertion order produces under a monotonic clock). -/
theorem sortById_of_sorted : ∀ (recs : List Redo),
    (recs.map (fun r => r.id)).Chain' (· < ·) → sortById recs = recs := by
  intro recs
  induction recs with
  | nil => intro _; rfl
  | cons r l ih =>
    intro h
    simp only [List.map_cons] at h
    have hl := (List.chain'_cons'.mp h).2
    have hhead := (List.chain'_cons'.mp h).1
    simp only [sortById, ih hl]
    cases l with
    | nil => rfl
    | cons b l2 =>
      have hrb : r.id < b.id := hhead b.id (by simp)
      simp [insertById, le_of_lt hrb]

/-- Under a strictly increasing clock the assigned record ids strictly
increase, so they are pairwise distinct and `All()` preserves insertion
order. -/
theorem addRecs_ids_mono : ∀ (adds : List AddCall) (clock : Nat → Int) (k : Nat)
    (lastId : Int), (∀ i, clock i < clock (i + 1)) → lastId ≤ clock k →
    ((addRecs clock k lastId adds).map (fun r => r.id)).Chain' (· < ·) ∧
    ∀ r ∈ addRecs clock k lastId adds, lastId < r.id := by
  intro adds
  induction adds with
  | nil => intro clock k lastId _ _; exact ⟨List.chain'_nil, by simp [addRecs]⟩
  | cons c rest ih =>
    intro clock k lastId hmono hstart
    set id : Int := if clock k = lastId then clock k + 1 else clock k with hid
    have hgt : lastId < id := by
      rw [hid]
      by_cases hc : clock k = lastId
      · simp [hc]
      · rw [if_neg hc]
        omega
    have hnext : id ≤ clock (k + 1) := by
      have := hmono k
      rw [hid]
      by_cases hc : clock k = lastId
      · simp [hc]; omega
      · rw [if_neg hc]; omega
    obtain ⟨hch, hmem⟩ := ih clock (k + 1) id hmono hnext
    constructor
    · show ((redoOfAdd c id).id :: (addRecs clock (k + 1) id rest).map (fun r => r.id)).Chain' (· < ·)
      refine List.chain'_cons'.mpr ⟨?_, hch⟩
      intro y hy
      have hmemy : y ∈ (addRecs clock (k + 1) id rest).map (fun r => r.id) :=
        List.mem_of_mem_head? hy
      obtain ⟨r2, hr2, hr2y⟩ := List.mem_map.mp hmemy
      have := hmem r2 hr2
      show (redoOfAdd c id).id < y
      simp only [redoOfAdd]
      omega
    · intro r hr
      rcases List.mem_cons.mp hr with hr | hr
      · rw [hr]
        simpa [redoOfAdd] using hgt
      · have := hmem r hr
        omega

/-- `recoverLoad` with every manager registered succeeds and replays the
records into the cache. -/
theorem recoverLoad_spec : ∀ (recs : List Redo) (tm : TM) (rms : List String),
    (∀ r ∈ recs, r.manager ∈ rms) →
    tm.recoverLoad rms recs = (none, { tm with etxs := loadCache tm.etxs recs }) := by
  intro recs
  induction recs with
  | nil => intro tm rms _; rfl
  | cons r rest ih =>
    intro tm rms hm
    unfold TM.recoverLoad
    rw [if_pos (hm r (List.mem_cons_self r rest))]
    rw [ih _ rms (fun r2 h2 => hm r2 (List.mem_cons_of_mem r h2))]
    rfl


/-! ## Per-transaction projections of the record list -/

/-- The records of one transaction and kind, in insertion order. -/
def txRecs (recs : List Redo) (tx : Int) (ty : Int) : List Redo :=
  recs.filter (fun r => decide (r.tx = tx) && decide (r.redoType = ty))

/-- The dispatch of an immediate cached operation of `tx`. -/
def dispOfImm (tx : Int) (o : EtxOp) : Disp :=
  { tx := tx, id := o.id, opType := o.opType, timed := false, op := o.op }

/-- The dispatch of a timed cached operation of `tx`. -/
def dispOfTimed (tx : Int) (o : EtxOp) : Disp :=
  { tx := tx, id := o.id, opType := o.opType, timed := true, op := o.op }

theorem addRecs_length : ∀ (adds : List AddCall) (clock : Nat → Int) (k : Nat) (lastId : Int),
    (addRecs clock k lastId adds).length = adds.length := by
  intro adds
  induction adds with
  | nil => intro clock k lastId; rfl
  | cons c rest ih => intro clock k lastId; simp [addRecs, ih]

theorem addRecs_types : ∀ (adds : List AddCall) (clock : Nat → Int) (k : Nat) (lastId : Int),
    ∀ r ∈ addRecs clock k lastId adds, r.redoType = redoNext ∨ r.redoType = redoTimed := by
  intro adds
  induction adds with
  | nil => intro clock k lastId r hr; simp [addRecs] at hr
  | cons c rest ih =>
    intro clock k lastId r hr
    rcases List.mem_cons.mp hr with hr | hr
    · rw [hr]
      by_cases hc : c.timed <;> simp [redoOfAdd, hc]
    · exact ih clock (k + 1) _ r hr

/-- The immediate records of `tx` carry the data of the `AddNext` calls for
`tx`, in call order. -/
theorem txRecs_next_proj : ∀ (adds : List AddCall) (clock : Nat → Int) (k : Nat)
    (lastId : Int) (tx : Int),
    (txRecs (addRecs clock k lastId adds) tx redoNext).map
        (fun r => (r.manager, r.opType, r.operation))
      = (adds.filter (fun c => decide (c.tx = tx) && !c.timed)).map
          (fun c => (c.rmName, c.opType, c.op)) := by
  intro adds
  induction adds with
  | nil => intro clock k lastId tx; rfl
  | cons c rest ih =>
    intro clock k lastId tx
    simp only [addRecs, txRecs, List.filter_cons, redoNext, redoTimed] at ih ⊢
    by_cases htx : c.tx = tx
    · by_cases hc : c.timed <;>
        simp [redoOfAdd, redoNext, redoTimed, htx, hc, ih]
    · simp [redoOfAdd, htx, ih]

/-- The timed records of `tx` carry the data (manager, rounded delay, type,
payload) of the `AddTimed` calls for `tx`, in call order. -/
theorem txRecs_timed_proj : ∀ (adds : List AddCall) (clock : Nat → Int) (k : Nat)
    (lastId : Int) (tx : Int),
    (txRecs (addRecs clock k lastId adds) tx redoTimed).map
        (fun r => (r.manager, r.delay, r.opType, r.operation))
      = (adds.filter (fun c => decide (c.tx = tx) && c.timed)).map
          (fun c => (c.rmName, delayOfDuration c.afterNs, c.opType, c.op)) := by
  intro adds
  induction adds with
  | nil => intro clock k lastId tx; rfl
  | cons c rest ih =>
    intro clock k lastId tx
    simp only [addRecs, txRecs, List.filter_cons, redoNext, redoTimed] at ih ⊢
    by_cases htx : c.tx = tx
    · by_cases hc : c.timed <;>
        simp [redoOfAdd, redoNext, redoTimed, htx, hc, ih]
    · simp [redoOfAdd, htx, ih]

/-- Filtering a flattened list of per-transaction blocks for one transaction
returns exactly that transaction's block. -/
theorem filter_flatten_blocks : ∀ (txs : List Int) (f : Int → List Disp) (tx : Int),
    (∀ t, ∀ d ∈ f t, d.tx = t) → txs.Nodup →
    ((txs.map f).flatten.filter (fun d => decide (d.tx = tx)))
      = if tx ∈ txs then f tx else [] := by
  intro txs
  induction txs with
  | nil => intro f tx _ _; simp
  | cons t ts ih =>
    intro f tx hblk hnd
    simp only [List.nodup_cons] at hnd
    simp only [List.map_cons, List.flatten_cons, List.filter_append]
    rw [ih f tx hblk hnd.2]
    by_cases htx : tx = t
    · subst htx
      rw [List.filter_eq_self.mpr (fun d hd => by simp [hblk tx d hd])]
      rw [if_neg hnd.1, if_pos (List.mem_cons_self tx ts)]
      simp
    · rw [List.filter_eq_nil_iff.mpr
        (fun d hd => by simp [hblk t d hd]; exact fun h => htx h.symm)]
      by_cases h3 : tx ∈ ts
      · rw [if_pos h3, if_pos (by simp [List.mem_cons, h3])]
        simp
      · rw [if_neg h3, if_neg (by simp [List.mem_cons, htx, h3])]
        simp


/-! ## The dispatch process ignores the id counter

`doNext` and everything built from it read and write every `TM` field except
`lastId`, which they thread through unchanged.  These congruence lemmas state
that running the process with a different `lastId` yields the same trace and
the same state apart from that field — this is what makes the post-`Recover`
redispatch (where the counter was reset by the crash) behave exactly like the
uncrashed process. -/

theorem endTx_lastId (E : List (Int × EtxOps)) (S : RedoStore) (L : Bool)
    (x y tx : Int) :
    (TM.mk E x S L).endTx tx
      = (((TM.mk E y S L).endTx tx).1,
         { ((TM.mk E y S L).endTx tx).2 with lastId := x }) := by
  simp only [TM.endTx]
  cases hg : getEtx E tx with
  | none => simp
  | some e =>
    cases he : e.isTimed with
    | false =>
      cases hi : e.immediate with
      | nil => simp [he, hi, endOps]
      | cons o rest =>
        simp only [he, hi, endOps]
        simp
    | true =>
      cases ht : e.timed with
      | nil => simp [he, ht, endOps]
      | cons o rest =>
        simp only [he, ht, endOps]
        simp

theorem doNext_lastId (E : List (Int × EtxOps)) (S : RedoStore) (L : Bool)
    (x y tx : Int) (b : Bool) (now : Int) :
    (TM.mk E x S L).doNext tx b now
      = ({ ((TM.mk E y S L).doNext tx b now).1 with lastId := x },
         ((TM.mk E y S L).doNext tx b now).2) := by
  simp only [TM.doNext]
  cases hg : getEtx E tx with
  | none => simp
  | some e0 =>
    simp only []
    split
    next h0 =>
      split
      next hget2 => simp
      next e2 hget2 =>
        split
        next hlen => simp
        next hlen => simp
    next o tail h0 =>
      split
      next hdue => simp
      next hdue =>
        rw [endTx_lastId _ _ _ x y]
        dsimp only
        split
        next hget2 => simp
        next e2 hget2 =>
          split
          next hact => simp
          next hact =>
            split
            next hlen => simp
            next hlen => simp


theorem doLoop_lastId : ∀ (fuel : Nat) (E : List (Int × EtxOps)) (S : RedoStore)
    (L : Bool) (x y tx : Int) (b : Bool) (now : Int),
    (TM.mk E x S L).doLoop tx b now fuel
      = ({ ((TM.mk E y S L).doLoop tx b now fuel).1 with lastId := x },
         ((TM.mk E y S L).doLoop tx b now fuel).2) := by
  intro fuel
  induction fuel with
  | zero => intro E S L x y tx b now; rfl
  | succ n ih =>
    intro E S L x y tx b now
    cases hstep : (TM.mk E y S L).doNext tx b now with
    | mk tmY rest =>
      obtain ⟨ds, more⟩ := rest
      have hstepX : (TM.mk E x S L).doNext tx b now = ({ tmY with lastId := x }, ds, more) := by
        rw [doNext_lastId E S L x y tx b now, hstep]
      have hY : tmY = TM.mk tmY.etxs tmY.lastId tmY.store tmY.locked := rfl
      cases more with
      | false =>
        have eL : (TM.mk E x S L).doLoop tx b now (n + 1) = ({ tmY with lastId := x }, ds) := by
          conv_lhs => unfold TM.doLoop
          rw [hstepX]
          rfl
        have eR : (TM.mk E y S L).doLoop tx b now (n + 1) = (tmY, ds) := by
          conv_lhs => unfold TM.doLoop
          rw [hstep]
          rfl
        rw [eL, eR]
      | true =>
        have h1 : ({ tmY with lastId := x }).doLoop tx b now n
            = ({ (tmY.doLoop tx b now n).1 with lastId := x },
               (tmY.doLoop tx b now n).2) := by
          calc ({ tmY with lastId := x }).doLoop tx b now n
              = ({ ((TM.mk tmY.etxs tmY.lastId tmY.store tmY.locked).doLoop tx b now n).1
                    with lastId := x },
                 (TM.mk tmY.etxs tmY.lastId tmY.store tmY.locked).doLoop tx b now n |>.2) :=
                ih tmY.etxs tmY.store tmY.locked x tmY.lastId tx b now
            _ = ({ (tmY.doLoop tx b now n).1 with lastId := x },
                 (tmY.doLoop tx b now n).2) := by rw [← hY]
        have eL : (TM.mk E x S L).doLoop tx b now (n + 1)
            = (({ tmY with lastId := x }).doLoop tx b now n |>.1,
               ds ++ (({ tmY with lastId := x }).doLoop tx b now n).2) := by
          conv_lhs => unfold TM.doLoop
          rw [hstepX]
          rfl
        have eR : (TM.mk E y S L).doLoop tx b now (n + 1)
            = ((tmY.doLoop tx b now n).1, ds ++ (tmY.doLoop tx b now n).2) := by
          conv_lhs => unfold TM.doLoop
          rw [hstep]
          rfl
        rw [eL, eR, h1]

theorem doAll_lastId : ∀ (txs : List Int) (E : List (Int × EtxOps)) (S : RedoStore)
    (L : Bool) (x y : Int) (now : Int) (fuel : Nat),
    (TM.mk E x S L).doAll now fuel txs
      = ({ ((TM.mk E y S L).doAll now fuel txs).1 with lastId := x },
         ((TM.mk E y S L).doAll now fuel txs).2) := by
  intro txs
  induction txs with
  | nil => intro E S L x y now fuel; rfl
  | cons t ts ih =>
    intro E S L x y now fuel
    cases hstep : (TM.mk E y S L).doLoop t false now fuel with
    | mk tmY ds =>
      have hstepX : (TM.mk E x S L).doLoop t false now fuel = ({ tmY with lastId := x }, ds) := by
        rw [doLoop_lastId fuel E S L x y t false now, hstep]
      have hY : tmY = TM.mk tmY.etxs tmY.lastId tmY.store tmY.locked := rfl
      have h1 : ({ tmY with lastId := x }).doAll now fuel ts
          = ({ (tmY.doAll now fuel ts).1 with lastId := x },
             (tmY.doAll now fuel ts).2) := by
        calc ({ tmY with lastId := x }).doAll now fuel ts
            = ({ ((TM.mk tmY.etxs tmY.lastId tmY.store tmY.locked).doAll now fuel ts).1
                  with lastId := x },
               (TM.mk tmY.etxs tmY.lastId tmY.store tmY.locked).doAll now fuel ts |>.2) :=
              ih tmY.etxs tmY.store tmY.locked x tmY.lastId now fuel
          _ = _ := by rw [← hY]
      have eL : (TM.mk E x S L).doAll now fuel (t :: ts)
          = (({ tmY with lastId := x }).doAll now fuel ts |>.1,
             ds ++ (({ tmY with lastId := x }).doAll now fuel ts).2) := by
        conv_lhs => unfold TM.doAll
        rw [hstepX]
      have eR : (TM.mk E y S L).doAll now fuel (t :: ts)
          = ((tmY.doAll now fuel ts).1, ds ++ (tmY.doAll now fuel ts).2) := by
        conv_lhs => unfold TM.doAll
        rw [hstep]
      rw [eL, eR, h1]

theorem tickTxs_lastId : ∀ (txs : List Int) (E : List (Int × EtxOps)) (S : RedoStore)
    (L : Bool) (x y : Int) (now : Int) (fuel : Nat),
    (TM.mk E x S L).tickTxs now fuel txs
      = ({ ((TM.mk E y S L).tickTxs now fuel txs).1 with lastId := x },
         ((TM.mk E y S L).tickTxs now fuel txs).2) := by
  intro txs
  induction txs with
  | nil => intro E S L x y now fuel; rfl
  | cons t ts ih =>
    intro E S L x y now fuel
    cases hstep : (TM.mk E y S L).doLoop t true now fuel with
    | mk tmY ds =>
      have hstepX : (TM.mk E x S L).doLoop t true now fuel = ({ tmY with lastId := x }, ds) := by
        rw [doLoop_lastId fuel E S L x y t true now, hstep]
      have hY : tmY = TM.mk tmY.etxs tmY.lastId tmY.store tmY.locked := rfl
      have h1 : ({ tmY with lastId := x }).tickTxs now fuel ts
          = ({ (tmY.tickTxs now fuel ts).1 with lastId := x },
             (tmY.tickTxs now fuel ts).2) := by
        calc ({ tmY with lastId := x }).tickTxs now fuel ts
            = ({ ((TM.mk tmY.etxs tmY.lastId tmY.store tmY.locked).tickTxs now fuel ts).1
                  with lastId := x },
               (TM.mk tmY.etxs tmY.lastId tmY.store tmY.locked).tickTxs now fuel ts |>.2) :=
              ih tmY.etxs tmY.store tmY.locked x tmY.lastId now fuel
          _ = _ := by rw [← hY]
      have eL : (TM.mk E x S L).tickTxs now fuel (t :: ts)
          = (({ tmY with lastId := x }).tickTxs now fuel ts |>.1,
             ds ++ (({ tmY with lastId := x }).tickTxs now fuel ts).2) := by
        conv_lhs => unfold TM.tickTxs
        rw [hstepX]
      have eR : (TM.mk E y S L).tickTxs now fuel (t :: ts)
          = ((tmY.tickTxs now fuel ts).1, ds ++ (tmY.tickTxs now fuel ts).2) := by
        conv_lhs => unfold TM.tickTxs
        rw [hstep]
      rw [eL, eR, h1]


/-! ## Canonical per-transaction dispatch blocks -/

/-- The dispatches of a transaction's immediate records, in record order. -/
def immBlock (recs : List Redo) (t : Int) : List Disp :=
  (txRecs recs t redoNext).map (fun r => dispOfImm t (opOfRedo r))

/-- The dispatches of a transaction's timed records, stably sorted by due
time. -/
def timedBlock (recs : List Redo) (t : Int) : List Disp :=
  (sortByDue ((txRecs recs t redoTimed).map opOfRedo)).map (dispOfTimed t)

theorem txRecs_mem (recs : List Redo) (tx ty : Int) (r : Redo)
    (h : r ∈ txRecs recs tx ty) : r ∈ recs ∧ r.tx = tx ∧ r.redoType = ty := by
  simp only [txRecs, List.mem_filter, Bool.and_eq_true, decide_eq_true_eq] at h
  exact ⟨h.1, h.2.1, h.2.2⟩

theorem txRecs_of_filter_empty (recs : List Redo) (tx ty : Int)
    (h : (recs.filter (fun r => decide (r.tx = tx))).isEmpty = true) :
    txRecs recs tx ty = [] := by
  rw [List.isEmpty_iff] at h
  rw [List.filter_eq_nil_iff] at h
  rw [txRecs, List.filter_eq_nil_iff]
  intro r hr
  simp only [Bool.and_eq_true, decide_eq_true_eq, not_and]
  intro htx
  exact absurd (by simp [htx]) (h r hr)

/-- Loading a record list into an empty cache: explicit per-transaction
entries. -/
theorem loadCache_empty_getEtx (recs : List Redo) (tx : Int)
    (hty : ∀ r ∈ recs, r.redoType = redoNext ∨ r.redoType = redoTimed) :
    getEtx (loadCache [] recs) tx =
      if (recs.filter (fun r => decide (r.tx = tx))).isEmpty then none
      else some { isTimed := false, active := false, sorted := false,
                  immediate := (txRecs recs tx redoNext).map opOfRedo,
                  timed := (txRecs recs tx redoTimed).map opOfRedo } := by
  rw [loadCache_getEtx recs [] tx hty]
  rfl

theorem mem_keys_loadCache_empty (recs : List Redo)
    (hty : ∀ r ∈ recs, r.redoType = redoNext ∨ r.redoType = redoTimed)
    (r : Redo) (hr : r ∈ recs) :
    r.tx ∈ (loadCache [] recs).map Prod.fst := by
  have hform := loadCache_empty_getEtx recs r.tx hty
  have hne : (recs.filter (fun x => decide (x.tx = r.tx))).isEmpty = false := by
    cases hie : (recs.filter (fun x => decide (x.tx = r.tx))).isEmpty with
    | false => rfl
    | true =>
      rw [List.isEmpty_iff, List.filter_eq_nil_iff] at hie
      exact absurd (by simp) (hie r hr)
  rw [hne] at hform
  simp only [Bool.false_eq_true, if_false] at hform
  exact getEtx_isSome_mem _ _ _ hform

/-! ## Permutation plumbing for the exactly-once argument -/

theorem flatten_map_perm_congr {α : Type} (ks : List Int) (f g : Int → List α)
    (h : ∀ t ∈ ks, (f t).Perm (g t)) :
    ((ks.map f).flatten).Perm ((ks.map g).flatten) := by
  induction ks with
  | nil => simp
  | cons k rest ih =>
    simp only [List.map_cons, List.flatten_cons]
    exact (h k (List.mem_cons_self k rest)).append
      (ih (fun t ht => h t (List.mem_cons_of_mem k ht)))

theorem flatten_two_maps_perm {α : Type} (ks : List Int) (f g : Int → List α) :
    ((ks.map f).flatten ++ (ks.map g).flatten).Perm
      ((ks.map (fun t => f t ++ g t)).flatten) := by
  induction ks with
  | nil => simp
  | cons k rest ih =>
    simp only [List.map_cons, List.flatten_cons]
    rw [List.append_assoc (f k), List.append_assoc (f k)]
    refine List.Perm.append_left (f k) ?_
    rw [← List.append_assoc]
    refine ((List.perm_append_comm).append_right _).trans ?_
    rw [List.append_assoc]
    exact List.Perm.append_left _ ih

theorem flatten_perm_of_subkeys {α : Type} : ∀ (ks ks2 : List Int) (g : Int → List α),
    ks2.Nodup → ks.Nodup → (∀ t ∈ ks2, t ∈ ks) → (∀ t ∈ ks, t ∉ ks2 → g t = []) →
    ((ks2.map g).flatten).Perm ((ks.map g).flatten) := by
  intro ks
  induction ks with
  | nil =>
    intro ks2 g _ _ hsub _
    have : ks2 = [] := List.eq_nil_iff_forall_not_mem.mpr (fun t ht => by
      simpa using hsub t ht)
    simp [this]
  | cons k rest ih =>
    intro ks2 g hnd2 hnd hsub hoff
    simp only [List.nodup_cons] at hnd
    by_cases hk : k ∈ ks2
    · have hperm2 : ks2.Perm (k :: ks2.erase k) := List.perm_cons_erase hk
      have hflat : ((ks2.map g).flatten).Perm (((k :: ks2.erase k).map g).flatten) :=
        (hperm2.map g).flatten
      refine hflat.trans ?_
      simp only [List.map_cons, List.flatten_cons]
      refine List.Perm.append_left (g k) ?_
      refine ih (ks2.erase k) g (hnd2.erase k) hnd.2 ?_ ?_
      · intro t ht
        have ht2 : t ≠ k ∧ t ∈ ks2 := (List.Nodup.mem_erase_iff hnd2).mp ht
        rcases List.mem_cons.mp (hsub t ht2.2) with h | h
        · exact absurd h ht2.1
        · exact h
      · intro t ht htno
        by_cases hin : t ∈ ks2
        · exfalso
          have : t ∈ ks2.erase k := (List.Nodup.mem_erase_iff hnd2).mpr
            ⟨fun he => hnd.1 (he ▸ ht), hin⟩
          exact htno this
        · exact hoff t (List.mem_cons_of_mem k ht) hin
    · have hgk : g k = [] := hoff k (List.mem_cons_self k rest) hk
      simp only [List.map_cons, List.flatten_cons, hgk, List.nil_append]
      refine ih ks2 g hnd2 hnd.2 ?_ ?_
      · intro t ht
        rcases List.mem_cons.mp (hsub t ht) with h | h
        · exact absurd (h ▸ ht) hk
        · exact h
      · intro t ht htno
        exact hoff t (List.mem_cons_of_mem k ht) htno

/-- Partitioning a record list by transaction: flattening the per-transaction
groups of a list of distinct keys covering every record is a permutation of
the records. -/
theorem partition_recs : ∀ (ks : List Int) (recs : List Redo),
    ks.Nodup → (∀ r ∈ recs, r.tx ∈ ks) →
    (∀ r ∈ recs, r.redoType = redoNext ∨ r.redoType = redoTimed) →
    ((ks.map (fun t => txRecs recs t redoNext ++ txRecs recs t redoTimed)).flatten).Perm
      recs := by
  intro ks
  induction ks with
  | nil =>
    intro recs _ hcov _
    have : recs = [] := List.eq_nil_iff_forall_not_mem.mpr (fun r hr => by
      simpa using hcov r hr)
    simp [this]
  | cons k rest ih =>
    intro recs hnd hcov hty
    simp only [List.nodup_cons] at hnd
    simp only [List.map_cons, List.flatten_cons]
    have h1 : (txRecs recs k redoNext ++ txRecs recs k redoTimed).Perm
        (recs.filter (fun r => decide (r.tx = k))) := by
      have e1 : txRecs recs k redoNext
          = (recs.filter (fun r => decide (r.tx = k))).filter
              (fun r => decide (r.redoType = redoNext)) := by
        rw [List.filter_filter, txRecs]
        exact List.filter_congr (fun r _ => by rw [Bool.and_comm])
      have e2 : txRecs recs k redoTimed
          = (recs.filter (fun r => decide (r.tx = k))).filter
              (fun r => !(decide (r.redoType = redoNext))) := by
        rw [List.filter_filter, txRecs]
        refine List.filter_congr ?_
        intro r hr
        rcases hty r hr with h | h <;>
          simp [h, redoNext, redoTimed]
      rw [e1, e2]
      exact List.filter_append_perm _ _
    set recs2 : List Redo := recs.filter (fun r => !(decide (r.tx = k))) with hrecs2
    have h2 : ∀ t ∈ rest,
        txRecs recs t redoNext ++ txRecs recs t redoTimed
          = txRecs recs2 t redoNext ++ txRecs recs2 t redoTimed := by
      intro t ht
      have htk : t ≠ k := fun he => hnd.1 (he ▸ ht)
      have key : ∀ ty : Int, txRecs recs2 t ty = txRecs recs t ty := by
        intro ty
        rw [hrecs2, txRecs, List.filter_filter, txRecs]
        refine List.filter_congr ?_
        intro r _
        by_cases hrt : r.tx = t
        · simp [hrt, htk]
        · simp [hrt]
      rw [key redoNext, key redoTimed]
    have h3 : (rest.map (fun t => txRecs recs t redoNext ++ txRecs recs t redoTimed))
        = (rest.map (fun t => txRecs recs2 t redoNext ++ txRecs recs2 t redoTimed)) :=
      List.map_congr_left h2
    have h4 : ((rest.map (fun t => txRecs recs2 t redoNext ++ txRecs recs2 t redoTimed)).flatten).Perm
        recs2 := by
      refine ih recs2 hnd.2 ?_ ?_
      · intro r hr
        rw [hrecs2] at hr
        have hm := List.mem_filter.mp hr
        rcases List.mem_cons.mp (hcov r hm.1) with h | h
        · exfalso
          simp [h] at hm
        · exact h
      · intro r hr
        exact hty r (List.mem_filter.mp hr).1
    have hstep1 : ((txRecs recs k redoNext ++ txRecs recs k redoTimed) ++
        (rest.map (fun t => txRecs recs t redoNext ++ txRecs recs t redoTimed)).flatten).Perm
        ((recs.filter (fun r => decide (r.tx = k))) ++
          (rest.map (fun t => txRecs recs t redoNext ++ txRecs recs t redoTimed)).flatten) :=
      h1.append_right _
    have hstep2 : ((recs.filter (fun r => decide (r.tx = k))) ++
        (rest.map (fun t => txRecs recs t redoNext ++ txRecs recs t redoTimed)).flatten).Perm
        ((recs.filter (fun r => decide (r.tx = k))) ++ recs2) := by
      rw [h3]
      exact List.Perm.append_left _ h4
    exact (hstep1.trans hstep2).trans (List.filter_append_perm _ recs)


theorem map_flatten_blocks {α β : Type} (ks : List Int) (f : Int → List α) (g : α → β) :
    ((ks.map f).flatten).map g = (ks.map (fun k => (f k).map g)).flatten := by
  induction ks with
  | nil => rfl
  | cons k rest ih => simp [ih]


/-- The dispatch process as the application drives it after the add phase:
run the immediate loop (`Do`) for every cached transaction, then one worker
tick at time `T` for the timed operations. -/
def dispatchRun (E : List (Int × EtxOps)) (x : Int) (S : RedoStore) (T : Int)
    (fuel : Nat) : TM × List Disp :=
  let a := (TM.mk E x S false).doAll T fuel (E.map Prod.fst)
  let w := a.1.workerTick T fuel
  (w.1, a.2 ++ w.2)

/-- Full characterisation of the dispatch process on a cache loaded from a
record list: the trace projects per transaction to the canonical blocks, its
ids are a permutation of the record ids, and afterwards the cache is empty
and every dispatched id has been deleted from the store. -/
theorem dispatch_spec (recs : List Redo) (S : RedoStore) (x T : Int) (fuel : Nat)
    (hty : ∀ r ∈ recs, r.redoType = redoNext ∨ r.redoType = redoTimed)
    (hdue : ∀ r ∈ recs, Timestamp r.tx + r.delay * 1000000000 ≤ T)
    (hfuel : recs.length < fuel) :
    (∀ tx, ((dispatchRun (loadCache [] recs) x S T fuel).2.filter
        (fun d => decide (d.tx = tx))) = immBlock recs tx ++ timedBlock recs tx) ∧
    ((dispatchRun (loadCache [] recs) x S T fuel).2.map (fun d => d.id)).Perm
      (recs.map (fun r => r.id)) ∧
    (dispatchRun (loadCache [] recs) x S T fuel).1.etxs = [] ∧
    (dispatchRun (loadCache [] recs) x S T fuel).1.locked = false ∧
    (dispatchRun (loadCache [] recs) x S T fuel).1.lastId = x ∧
    (dispatchRun (loadCache [] recs) x S T fuel).1.store
      = S.deleteAllLogged
          ((dispatchRun (loadCache [] recs) x S T fuel).2.map (fun d => d.id)) := by
  set E : List (Int × EtxOps) := loadCache [] recs with hEdef
  set keys : List Int := E.map Prod.fst with hkeys
  have hknd : keys.Nodup := nodup_keys_loadCache recs [] (by simp)
  have hEform : ∀ t e, getEtx E t = some e →
      e = { isTimed := false, active := false, sorted := false,
            immediate := (txRecs recs t redoNext).map opOfRedo,
            timed := (txRecs recs t redoTimed).map opOfRedo } := by
    intro t e hg
    rw [hEdef, loadCache_empty_getEtx recs t hty] at hg
    split at hg
    · exact absurd hg (by simp)
    · exact (Option.some.inj hg).symm
  have hEnone : ∀ t, getEtx E t = none →
      txRecs recs t redoNext = [] ∧ txRecs recs t redoTimed = [] := by
    intro t hg
    rw [hEdef, loadCache_empty_getEtx recs t hty] at hg
    split at hg
    next hie => exact ⟨txRecs_of_filter_empty recs t _ hie, txRecs_of_filter_empty recs t _ hie⟩
    next => exact absurd hg (by simp)
  have hEsome_of_mem : ∀ t, t ∈ keys → ∃ e, getEtx E t = some e :=
    fun t ht => mem_keys_exists_getEtx E t ht
  have hmem_of_some : ∀ t e, getEtx E t = some e → t ∈ keys :=
    fun t e hg => getEtx_isSome_mem E t e hg
  have hq : ∀ tx e, getEtx E tx = some e →
      e.active = false ∧ e.isTimed = false ∧ e.immediate.length < fuel := by
    intro tx e hg
    rw [hEform tx e hg]
    refine ⟨rfl, rfl, ?_⟩
    simp only [List.length_map]
    calc (txRecs recs tx redoNext).length ≤ recs.length := List.length_filter_le _ _
      _ < fuel := hfuel
  obtain ⟨ha1, ha2, ha3, ha4, ha5, ha6, ha7⟩ :=
    doAll_spec keys (TM.mk E x S false) T fuel rfl hknd hknd hq
  set A : TM := ((TM.mk E x S false).doAll T fuel keys).1 with hAdef
  dsimp only at ha1 ha5 ha6 ha7
  have hblockImm : ∀ t ∈ keys,
      (match getEtx E t with
       | none => ([] : List Disp)
       | some e => e.immediate.map
           (fun o => { tx := t, id := o.id, opType := o.opType, timed := false, op := o.op }))
      = immBlock recs t := by
    intro t ht
    obtain ⟨e, hg⟩ := hEsome_of_mem t ht
    rw [hg, hEform t e hg]
    simp [immBlock, dispOfImm, List.map_map]
  have haTrace : ((TM.mk E x S false).doAll T fuel keys).2
      = (keys.map (immBlock recs)).flatten := by
    rw [ha7]
    congr 1
    exact List.map_congr_left hblockImm
  have haIds : (((TM.mk E x S false).doAll T fuel keys).2).map (fun d => d.id)
      = (keys.map (fun t => (txRecs recs t redoNext).map (fun r => r.id))).flatten := by
    rw [haTrace, map_flatten_blocks]
    congr 1
    refine List.map_congr_left ?_
    intro t _
    simp [immBlock, dispOfImm, opOfRedo, List.map_map]
  have hStoreA : A.store = S.deleteAllLogged
      ((((TM.mk E x S false).doAll T fuel keys).2).map (fun d => d.id)) := by
    rw [ha6, haIds]
    have e1 : (keys.map (fun t => match getEtx E t with
        | none => ([] : List Int)
        | some e => e.immediate.map (fun o => o.id))).flatten
        = (keys.map (fun t => (txRecs recs t redoNext).map (fun r => r.id))).flatten := by
      congr 1
      refine List.map_congr_left ?_
      intro t ht
      obtain ⟨e, hg⟩ := hEsome_of_mem t ht
      rw [hg, hEform t e hg]
      simp [opOfRedo, List.map_map]
    rw [e1]
  have hA_some : ∀ t e2, getEtx A.etxs t = some e2 →
      e2.immediate = [] ∧ e2.sorted = false ∧ (∀ o ∈ e2.timed, o.due ≤ T) ∧
      e2.timed.length < fuel ∧ e2.timed = (txRecs recs t redoTimed).map opOfRedo := by
    intro t e2 hg
    rw [ha5 t] at hg
    by_cases ht : t ∈ keys
    · rw [if_pos ht] at hg
      obtain ⟨e, hge⟩ := hEsome_of_mem t ht
      rw [hge] at hg
      dsimp only at hg
      by_cases htd : e.timed = []
      · rw [if_pos htd] at hg
        exact absurd hg (by simp)
      · rw [if_neg htd] at hg
        have he2 : e2 = { e with immediate := [] } := (Option.some.inj hg).symm
        have hef := hEform t e hge
        subst he2
        rw [hef]
        refine ⟨rfl, rfl, ?_, ?_, rfl⟩
        · intro o ho
          obtain ⟨r, hr, rfl⟩ := List.mem_map.mp ho
          have hrm := txRecs_mem recs t redoTimed r hr
          have hd := hdue r hrm.1
          simpa [opOfRedo] using hd
        · simp only [List.length_map]
          calc (txRecs recs t redoTimed).length ≤ recs.length := List.length_filter_le _ _
            _ < fuel := hfuel
    · rw [if_neg ht] at hg
      exact absurd (hmem_of_some t e2 hg) ht
  have hA_none : ∀ t, getEtx A.etxs t = none → timedBlock recs t = [] := by
    intro t hg
    rw [ha5 t] at hg
    by_cases ht : t ∈ keys
    · rw [if_pos ht] at hg
      obtain ⟨e, hge⟩ := hEsome_of_mem t ht
      rw [hge] at hg
      dsimp only at hg
      by_cases htd : e.timed = []
      · have hef := hEform t e hge
        rw [hef] at htd
        have h2 : txRecs recs t redoTimed = [] := by
          have := htd
          simp only [List.map_eq_nil_iff] at this
          exact this
        simp [timedBlock, h2, sortByDue]
      · rw [if_neg htd] at hg
        exact absurd hg (by simp)
    · rw [if_neg ht] at hg
      have h2 := (hEnone t hg).2
      simp [timedBlock, h2, sortByDue]
  have hA_subset : ∀ t ∈ A.etxs.map Prod.fst, t ∈ keys := by
    intro t ht
    obtain ⟨e2, hg⟩ := mem_keys_exists_getEtx A.etxs t ht
    by_cases h : t ∈ keys
    · exact h
    · rw [ha5 t, if_neg h] at hg
      exact absurd (hmem_of_some t e2 hg) h
  set keysA : List Int := A.etxs.map Prod.fst with hkeysA
  obtain ⟨ht1, ht2, ht3, ht4, ht5, ht6⟩ :=
    tickTxs_spec keysA A T fuel ha2 ha3 ha3 (fun tx e hg =>
      ⟨(hA_some tx e hg).1, (hA_some tx e hg).2.1, (hA_some tx e hg).2.2.1,
       (hA_some tx e hg).2.2.2.1⟩)
  have hblockTimed : ∀ t ∈ keysA,
      (match getEtx A.etxs t with
       | none => ([] : List Disp)
       | some e => (sortByDue e.timed).map
           (fun o => { tx := t, id := o.id, opType := o.opType, timed := true, op := o.op }))
      = timedBlock recs t := by
    intro t ht
    obtain ⟨e2, hg⟩ := mem_keys_exists_getEtx A.etxs t ht
    rw [hg]
    dsimp only
    rw [(hA_some t e2 hg).2.2.2.2]
    simp [timedBlock, dispOfTimed]
  have htickTrace : (A.tickTxs T fuel keysA).2 = (keysA.map (timedBlock recs)).flatten := by
    rw [ht6]
    congr 1
    exact List.map_congr_left hblockTimed
  have hwEtxs : (A.tickTxs T fuel keysA).1.etxs = [] := by
    refine eq_nil_of_all_getEtx_none _ ?_
    intro tx
    rw [ht4 tx]
    by_cases h : tx ∈ keysA
    · rw [if_pos h]
    · rw [if_neg h]
      cases hg : getEtx A.etxs tx with
      | none => rfl
      | some e2 => exact absurd (getEtx_isSome_mem _ _ _ hg) h
  have hwStore : (A.tickTxs T fuel keysA).1.store
      = S.deleteAllLogged (((((TM.mk E x S false).doAll T fuel keys).2)
          ++ (A.tickTxs T fuel keysA).2).map (fun d => d.id)) := by
    rw [ht5]
    have e3 : (keysA.map (fun t => match getEtx A.etxs t with
        | none => ([] : List Int)
        | some e => (sortByDue e.timed).map (fun o => o.id))).flatten
        = ((A.tickTxs T fuel keysA).2).map (fun d => d.id) := by
      rw [htickTrace, map_flatten_blocks]
      congr 1
      refine List.map_congr_left ?_
      intro t ht
      obtain ⟨e2, hg⟩ := mem_keys_exists_getEtx A.etxs t ht
      rw [hg]
      dsimp only
      rw [(hA_some t e2 hg).2.2.2.2]
      simp [timedBlock, dispOfTimed, List.map_map]
    rw [e3, hStoreA, ← deleteAllLogged_append, ← List.map_append]
  have immTag : ∀ t, ∀ d ∈ immBlock recs t, d.tx = t := by
    intro t d hd
    obtain ⟨r, _, rfl⟩ := List.mem_map.mp hd
    rfl
  have timedTag : ∀ t, ∀ d ∈ timedBlock recs t, d.tx = t := by
    intro t d hd
    obtain ⟨o, _, rfl⟩ := List.mem_map.mp hd
    rfl
  have immOff : ∀ tx, tx ∉ keys → immBlock recs tx = [] := by
    intro tx h
    cases hg : getEtx E tx with
    | some e => exact absurd (hmem_of_some tx e hg) h
    | none => simp [immBlock, (hEnone tx hg).1]
  have timedOff : ∀ tx, tx ∉ keysA → timedBlock recs tx = [] := by
    intro tx h
    cases hg : getEtx A.etxs tx with
    | some e2 => exact absurd (getEtx_isSome_mem _ _ _ hg) h
    | none => exact hA_none tx hg
  refine ⟨?_, ?_, hwEtxs, ht2, ?_, hwStore⟩
  · intro tx
    show (((TM.mk E x S false).doAll T fuel keys).2
        ++ (A.tickTxs T fuel keysA).2).filter (fun d => decide (d.tx = tx))
        = immBlock recs tx ++ timedBlock recs tx
    rw [List.filter_append, haTrace, htickTrace]
    rw [filter_flatten_blocks keys (immBlock recs) tx (fun t d hd => immTag t d hd) hknd]
    rw [filter_flatten_blocks keysA (timedBlock recs) tx (fun t d hd => timedTag t d hd) ha3]
    by_cases h1 : tx ∈ keys
    · by_cases h2 : tx ∈ keysA
      · rw [if_pos h1, if_pos h2]
      · rw [if_pos h1, if_neg h2, timedOff tx h2]
    · have h2 : tx ∉ keysA := fun hh => h1 (hA_subset tx hh)
      rw [if_neg h1, if_neg h2, immOff tx h1, timedOff tx h2]
  · show ((((TM.mk E x S false).doAll T fuel keys).2
        ++ (A.tickTxs T fuel keysA).2).map (fun d => d.id)).Perm
        (recs.map (fun r => r.id))
    rw [List.map_append, haIds]
    have hwIds : ((A.tickTxs T fuel keysA).2).map (fun d => d.id)
        = (keysA.map (fun t => (timedBlock recs t).map (fun d => d.id))).flatten := by
      rw [htickTrace, map_flatten_blocks]
    rw [hwIds]
    have hsub : ((keysA.map (fun t => (timedBlock recs t).map (fun d => d.id))).flatten).Perm
        ((keys.map (fun t => (timedBlock recs t).map (fun d => d.id))).flatten) := by
      refine flatten_perm_of_subkeys keys keysA _ ha3 hknd hA_subset ?_
      intro t _ htn
      rw [timedOff t htn]
      rfl
    have hcong : ((keys.map (fun t => (timedBlock recs t).map (fun d => d.id))).flatten).Perm
        ((keys.map (fun t => (txRecs recs t redoTimed).map (fun r => r.id))).flatten) := by
      refine flatten_map_perm_congr keys _ _ ?_
      intro t _
      have he : (timedBlock recs t).map (fun d => d.id)
          = (sortByDue ((txRecs recs t redoTimed).map opOfRedo)).map (fun o => o.id) := by
        simp [timedBlock, dispOfTimed, List.map_map]
      rw [he]
      refine ((sortByDue_perm _).map _).trans ?_
      rw [List.map_map]
      have he2 : (txRecs recs t redoTimed).map ((fun o => o.id) ∘ opOfRedo)
          = (txRecs recs t redoTimed).map (fun r => r.id) :=
        List.map_congr_left (fun r _ => rfl)
      rw [he2]
    refine (List.Perm.append_left _ (hsub.trans hcong)).trans ?_
    refine (flatten_two_maps_perm keys _ _).trans ?_
    have hmaps : keys.map (fun t => (txRecs recs t redoNext).map (fun r => r.id)
          ++ (txRecs recs t redoTimed).map (fun r => r.id))
        = keys.map (fun t =>
            (txRecs recs t redoNext ++ txRecs recs t redoTimed).map (fun r => r.id)) :=
      List.map_congr_left (fun t _ => (List.map_append _ _ _).symm)
    rw [hmaps, ← map_flatten_blocks]
    exact (partition_recs keys recs hknd
      (fun r hr => mem_keys_loadCache_empty recs hty r hr) hty).map _
  · show (A.tickTxs T fuel keysA).1.lastId = x
    rw [ht1, ha1]


/-! ## The end-to-end scenarios for durability and ordering -/

/-- The uncrashed scenario: `Begin`/`AddNext`/`AddTimed` calls on a fresh TM,
then `Do` for every cached transaction, then one worker tick at time `T`.
Returns the final TM and the dispatch trace. -/
def scenarioRun (adds : List AddCall) (clock : Nat → Int) (T : Int) (fuel : Nat) :
    TM × List Disp :=
  let s1 := runAdds (TM.new emptyStore) clock 0 adds
  let a := s1.doAll T fuel (s1.etxs.map Prod.fst)
  let w := a.1.workerTick T fuel
  (w.1, a.2 ++ w.2)

/-- The crash scenario: the same add calls, then a crash (cache discarded,
store kept), `Recover`, and one worker tick at time `T`.  Returns Recover's
error, the final TM and the post-crash dispatch trace. -/
def crashRun (adds : List AddCall) (clock : Nat → Int) (rms : List String)
    (T : Int) (fuel : Nat) : Option String × TM × List Disp :=
  let s1 := runAdds (TM.new emptyStore) clock 0 adds
  let r := (crash s1).recover rms T fuel
  let w := r.2.1.workerTick T fuel
  (r.1, w.1, r.2.2 ++ w.2)

theorem addRecs_manager_mem : ∀ (adds : List AddCall) (clock : Nat → Int) (k : Nat)
    (lastId : Int) (rms : List String), (∀ c ∈ adds, c.rmName ∈ rms) →
    ∀ r ∈ addRecs clock k lastId adds, r.manager ∈ rms := by
  intro adds
  induction adds with
  | nil => intro clock k lastId rms _ r hr; simp [addRecs] at hr
  | cons c rest ih =>
    intro clock k lastId rms hm r hr
    rcases List.mem_cons.mp hr with hr | hr
    · rw [hr]
      exact hm c (List.mem_cons_self c rest)
    · exact ih clock (k + 1) _ rms (fun c2 h2 => hm c2 (List.mem_cons_of_mem c h2)) r hr

theorem deleteAllLogged_recs_nil : ∀ (ids : List Int) (s : RedoStore),
    s.failDeleteIds = [] → (∀ r ∈ s.recs, r.id ∈ ids) →
    (s.deleteAllLogged ids).recs = [] := by
  intro ids
  induction ids with
  | nil =>
    intro s _ hcov
    exact List.eq_nil_iff_forall_not_mem.mpr (fun r hr => by simpa using hcov r hr)
  | cons i rest ih =>
    intro s hfail hcov
    show ((s.deleteId i).2.deleteAllLogged rest).recs = []
    rw [RedoStore.deleteId]
    rw [hfail]
    simp only [List.not_mem_nil, if_false]
    refine ih _ rfl ?_
    intro r hr
    simp only [List.mem_filter] at hr
    rcases List.mem_cons.mp (hcov r hr.1) with h | h
    · exfalso
      have := hr.2
      simp [h] at this
    · exact h

/-- What claim C2 asserts of the uncrashed scenario, for one transaction:
the dispatch trace of `tx` is its immediate block followed by its timed
block; the immediate block lists the `AddNext` records of `tx` in call order
with the submitted manager/opType/payload; the timed block is sorted by due
time, stably (equal due times keep append order); and the timed records in
append order carry the `AddTimed` call data. -/
def withinTxOrder (adds : List AddCall) (clock : Nat → Int) (T : Int)
    (fuel : Nat) (tx : Int) : Prop :=
  let recs := addRecs clock 0 0 adds
  ((scenarioRun adds clock T fuel).2.filter (fun d => decide (d.tx = tx))
      = immBlock recs tx ++ timedBlock recs tx)
  ∧ ((txRecs recs tx redoNext).map (fun r => (r.manager, r.opType, r.operation))
      = (adds.filter (fun c => decide (c.tx = tx) && !c.timed)).map
          (fun c => (c.rmName, c.opType, c.op)))
  ∧ (((sortByDue ((txRecs recs tx redoTimed).map opOfRedo)).map
        (fun o => o.due)).Pairwise (· ≤ ·))
  ∧ (∀ d : Int, (sortByDue ((txRecs recs tx redoTimed).map opOfRedo)).filter
        (fun o => decide (o.due = d))
      = ((txRecs recs tx redoTimed).map opOfRedo).filter (fun o => decide (o.due = d)))
  ∧ ((txRecs recs tx redoTimed).map (fun r => (r.manager, r.delay, r.opType, r.operation))
      = (adds.filter (fun c => decide (c.tx = tx) && c.timed)).map
          (fun c => (c.rmName, delayOfDuration c.afterNs, c.opType, c.op)))

/-- C2: within one transaction, `Do` (with the synchronous `End` chain)
dispatches the immediate operations strictly in `AddNext` append order, and
the worker dispatches the timed operations in ascending due-time order with
equal due times broken by append order (stable sort), provided every timed
operation is due by the worker tick and the fuel covers the adds. -/
theorem C2_within_transaction_order (adds : List AddCall) (clock : Nat → Int)
    (T : Int) (fuel : Nat) (tx : Int)
    (hdue : ∀ r ∈ addRecs clock 0 0 adds,
      Timestamp r.tx + r.delay * 1000000000 ≤ T)
    (hfuel : adds.length < fuel) :
    withinTxOrder adds clock T fuel tx := by
  have hty := addRecs_types adds clock 0 0
  have hlen : (addRecs clock 0 0 adds).length < fuel := by
    rw [addRecs_length]
    exact hfuel
  obtain ⟨hfilt, _, _, _, _, _⟩ := dispatch_spec (addRecs clock 0 0 adds)
    { recs := addRecs clock 0 0 adds, failInsert := false, failDeleteIds := [],
      deleteCalls := [] }
    (lastIdAfter clock 0 0 adds) T fuel hty hdue hlen
  have hs1 : runAdds (TM.new emptyStore) clock 0 adds
      = TM.mk (loadCache [] (addRecs clock 0 0 adds)) (lastIdAfter clock 0 0 adds)
          { recs := addRecs clock 0 0 adds, failInsert := false, failDeleteIds := [],
            deleteCalls := [] } false := by
    rw [runAdds_spec adds (TM.new emptyStore) clock 0 rfl rfl]
    rfl
  have hrun : scenarioRun adds clock T fuel
      = dispatchRun (loadCache [] (addRecs clock 0 0 adds))
          (lastIdAfter clock 0 0 adds)
          { recs := addRecs clock 0 0 adds, failInsert := false, failDeleteIds := [],
            deleteCalls := [] } T fuel := by
    unfold scenarioRun dispatchRun
    rw [hs1]
  refine ⟨?_, txRecs_next_proj adds clock 0 0 tx, ?_,
    fun d => sortByDue_stable _ d, txRecs_timed_proj adds clock 0 0 tx⟩
  · rw [hrun]
    exact hfilt tx
  · exact (List.pairwise_map).mpr (sortByDue_sorted _)


/-- What claim C1 asserts of the crash scenario: `Recover` returns no error;
the post-crash dispatch trace equals the uncrashed scenario's trace (same
operations, same order); the dispatched ids are exactly the ids of the added
records, each exactly once; every transaction's trace is its canonical
immediate-then-timed order; and afterwards both the cache and the redo store
are empty. -/
def durableRedispatch (adds : List AddCall) (clock : Nat → Int)
    (rms : List String) (T : Int) (fuel : Nat) : Prop :=
  let recs := addRecs clock 0 0 adds
  let cr := crashRun adds clock rms T fuel
  (cr.1 = none)
  ∧ (cr.2.2 = (scenarioRun adds clock T fuel).2)
  ∧ ((cr.2.2.map (fun d => d.id)).Perm (recs.map (fun r => r.id)))
  ∧ ((recs.map (fun r => r.id)).Nodup)
  ∧ (∀ tx, cr.2.2.filter (fun d => decide (d.tx = tx))
      = immBlock recs tx ++ timedBlock recs tx)
  ∧ (cr.2.1.etxs = [])
  ∧ (cr.2.1.store.recs = [])

/-- C1: after any sequence of `AddNext`/`AddTimed` calls, a crash, and
`Recover` with the managers registered, every added (and never ended)
operation is re-dispatched exactly once, in the order the uncrashed process
would have used, and the cache and redo store end up empty — provided the
clock is strictly increasing and nonnegative, every timed operation is due
by the worker tick, and the fuel covers the adds. -/
theorem C1_durable_exactly_once (adds : List AddCall) (clock : Nat → Int)
    (rms : List String) (T : Int) (fuel : Nat)
    (hmono : ∀ i, clock i < clock (i + 1)) (hc0 : 0 ≤ clock 0)
    (hrms : ∀ c ∈ adds, c.rmName ∈ rms)
    (hdue : ∀ r ∈ addRecs clock 0 0 adds,
      Timestamp r.tx + r.delay * 1000000000 ≤ T)
    (hfuel : adds.length < fuel) :
    durableRedispatch adds clock rms T fuel := by
  have hty := addRecs_types adds clock 0 0
  have hlen : (addRecs clock 0 0 adds).length < fuel := by
    rw [addRecs_length]
    exact hfuel
  have hchain := addRecs_ids_mono adds clock 0 0 hmono hc0
  obtain ⟨hfiltC, hpermC, hetxsC, hlkC, hlastC, hstoreC⟩ :=
    dispatch_spec (addRecs clock 0 0 adds)
      { recs := addRecs clock 0 0 adds, failInsert := false, failDeleteIds := [],
        deleteCalls := [] } 0 T fuel hty hdue hlen
  have hs1 : runAdds (TM.new emptyStore) clock 0 adds
      = TM.mk (loadCache [] (addRecs clock 0 0 adds)) (lastIdAfter clock 0 0 adds)
          { recs := addRecs clock 0 0 adds, failInsert := false, failDeleteIds := [],
            deleteCalls := [] } false := by
    rw [runAdds_spec adds (TM.new emptyStore) clock 0 rfl rfl]
    rfl
  have hall : RedoStore.all
      { recs := addRecs clock 0 0 adds, failInsert := false, failDeleteIds := [],
        deleteCalls := [] } = addRecs clock 0 0 adds := by
    show sortById (addRecs clock 0 0 adds) = addRecs clock 0 0 adds
    exact sortById_of_sorted _ hchain.1
  have hmans : ∀ r ∈ addRecs clock 0 0 adds, r.manager ∈ rms :=
    addRecs_manager_mem adds clock 0 0 rms hrms
  have hrec : (TM.mk []
      (0 : Int)
      { recs := addRecs clock 0 0 adds, failInsert := false, failDeleteIds := [],
        deleteCalls := [] } false).recover rms T fuel
      = (none,
         ((TM.mk (loadCache [] (addRecs clock 0 0 adds)) 0
             { recs := addRecs clock 0 0 adds, failInsert := false,
               failDeleteIds := [], deleteCalls := [] } false).doAll T fuel
            ((loadCache [] (addRecs clock 0 0 adds)).map Prod.fst)).1,
         ((TM.mk (loadCache [] (addRecs clock 0 0 adds)) 0
             { recs := addRecs clock 0 0 adds, failInsert := false,
               failDeleteIds := [], deleteCalls := [] } false).doAll T fuel
            ((loadCache [] (addRecs clock 0 0 adds)).map Prod.fst)).2) := by
    unfold TM.recover
    dsimp only
    rw [hall]
    rw [recoverLoad_spec (addRecs clock 0 0 adds) _ rms hmans]
  have hcr : crashRun adds clock rms T fuel
      = (none,
         (dispatchRun (loadCache [] (addRecs clock 0 0 adds)) 0
            { recs := addRecs clock 0 0 adds, failInsert := false,
              failDeleteIds := [], deleteCalls := [] } T fuel).1,
         (dispatchRun (loadCache [] (addRecs clock 0 0 adds)) 0
            { recs := addRecs clock 0 0 adds, failInsert := false,
              failDeleteIds := [], deleteCalls := [] } T fuel).2) := by
    have hcrash : crash (TM.mk (loadCache [] (addRecs clock 0 0 adds))
        (lastIdAfter clock 0 0 adds)
        { recs := addRecs clock 0 0 adds, failInsert := false, failDeleteIds := [],
          deleteCalls := [] } false)
        = TM.mk [] (0 : Int)
            { recs := addRecs clock 0 0 adds, failInsert := false,
              failDeleteIds := [], deleteCalls := [] } false := rfl
    have step1 : crashRun adds clock rms T fuel
        = (((crash (runAdds (TM.new emptyStore) clock 0 adds)).recover rms T fuel).1,
           ((((crash (runAdds (TM.new emptyStore) clock 0 adds)).recover rms T
                fuel).2.1.workerTick T fuel).1),
           ((crash (runAdds (TM.new emptyStore) clock 0 adds)).recover rms T fuel).2.2
             ++ ((((crash (runAdds (TM.new emptyStore) clock 0 adds)).recover rms T
                fuel).2.1.workerTick T fuel).2)) := rfl
    rw [hs1, hcrash, hrec] at step1
    dsimp only at step1
    exact step1
  have hrun : scenarioRun adds clock T fuel
      = dispatchRun (loadCache [] (addRecs clock 0 0 adds))
          (lastIdAfter clock 0 0 adds)
          { recs := addRecs clock 0 0 adds, failInsert := false, failDeleteIds := [],
            deleteCalls := [] } T fuel := by
    unfold scenarioRun dispatchRun
    rw [hs1]
  have htraceEq : (dispatchRun (loadCache [] (addRecs clock 0 0 adds)) 0
        { recs := addRecs clock 0 0 adds, failInsert := false, failDeleteIds := [],
          deleteCalls := [] } T fuel).2
      = (dispatchRun (loadCache [] (addRecs clock 0 0 adds))
          (lastIdAfter clock 0 0 adds)
          { recs := addRecs clock 0 0 adds, failInsert := false, failDeleteIds := [],
            deleteCalls := [] } T fuel).2 := by
    unfold dispatchRun
    rw [doAll_lastId ((loadCache [] (addRecs clock 0 0 adds)).map Prod.fst)
      (loadCache [] (addRecs clock 0 0 adds))
      { recs := addRecs clock 0 0 adds, failInsert := false, failDeleteIds := [],
        deleteCalls := [] } false 0 (lastIdAfter clock 0 0 adds) T fuel]
    set An : TM := ((TM.mk (loadCache [] (addRecs clock 0 0 adds))
        (lastIdAfter clock 0 0 adds)
        { recs := addRecs clock 0 0 adds, failInsert := false, failDeleteIds := [],
          deleteCalls := [] } false).doAll T fuel
        ((loadCache [] (addRecs clock 0 0 adds)).map Prod.fst)).1 with hAn
    dsimp only
    congr 1
    show ((TM.mk An.etxs 0 An.store An.locked).tickTxs T fuel
        (An.etxs.map Prod.fst)).2
      = (An.tickTxs T fuel (An.etxs.map Prod.fst)).2
    rw [tickTxs_lastId (An.etxs.map Prod.fst) An.etxs An.store An.locked 0
      An.lastId T fuel]
  refine ⟨?_, ?_, ?_, ?_, ?_, ?_, ?_⟩
  · rw [hcr]
  · rw [hcr, hrun]
    dsimp only
    exact htraceEq
  · rw [hcr]
    dsimp only
    exact hpermC
  · exact List.Pairwise.imp (fun h => ne_of_lt h) (List.chain'_iff_pairwise.mp hchain.1)
  · intro tx
    rw [hcr]
    dsimp only
    exact hfiltC tx
  · rw [hcr]
    dsimp only
    exact hetxsC
  · rw [hcr]
    dsimp only
    rw [hstoreC]
    refine deleteAllLogged_recs_nil _ _ rfl ?_
    intro r hr
    exact (hpermC.mem_iff).mpr (List.mem_map_of_mem _ hr)


/-- Concrete add sequence for exercising the ordering claim: two immediate
operations and one timed operation in a single transaction. -/
def c2adds : List AddCall :=
  [ { tx := 7, rmName := "rm", timed := false, afterNs := 0, opType := 1, op := 11 },
    { tx := 7, rmName := "rm", timed := false, afterNs := 0, opType := 2, op := 12 },
    { tx := 7, rmName := "rm", timed := true, afterNs := 2000000000, opType := 3, op := 13 } ]

/-- A strictly increasing concrete clock. -/
def c2clock : Nat → Int := fun i => (i : Int) + 1

theorem C2_within_transaction_order_witness :
    ((∀ r ∈ addRecs c2clock 0 0 c2adds,
        Timestamp r.tx + r.delay * 1000000000 ≤ 10000000000) ∧
      c2adds.length < 4) ∧
    withinTxOrder c2adds c2clock 10000000000 4 7 :=
  ⟨⟨by decide, by decide⟩,
   C2_within_transaction_order c2adds c2clock 10000000000 4 7 (by decide) (by decide)⟩

/-- Concrete add sequence for exercising the durability claim: an immediate
operation and a timed operation in one transaction, for two managers. -/
def c1adds : List AddCall :=
  [ { tx := 3, rmName := "rmA", timed := false, afterNs := 0, opType := 1, op := 21 },
    { tx := 3, rmName := "rmB", timed := true, afterNs := 5000000000, opType := 2, op := 22 } ]

/-- A strictly increasing concrete clock for the durability witness. -/
def c1clock : Nat → Int := fun i => (i : Int) + 10

theorem C1_durable_exactly_once_witness :
    ((∀ i : Nat, c1clock i < c1clock (i + 1)) ∧ ((0 : Int) ≤ c1clock 0) ∧
      (∀ c ∈ c1adds, c.rmName ∈ ["rmA", "rmB"]) ∧
      (∀ r ∈ addRecs c1clock 0 0 c1adds,
        Timestamp r.tx + r.delay * 1000000000 ≤ 10000000000) ∧
      c1adds.length < 3) ∧
    durableRedispatch c1adds c1clock ["rmA", "rmB"] 10000000000 3 :=
  ⟨⟨by intro i; simp only [c1clock]; push_cast; omega,
    by decide, by decide, by decide, by decide⟩,
   C1_durable_exactly_once c1adds c1clock ["rmA", "rmB"] 10000000000 3
     (by intro i; simp only [c1clock]; push_cast; omega)
     (by decide) (by decide) (by decide) (by decide)⟩

end Etx
